import Mathlib

/-!
Verification of `scripts/tulsa_council_document_scraper.py`.

The script has three functions:

* `decrement_item_in_url` — a pure function over URL strings, built on the
  Python stdlib functions `urlparse`, `parse_qs`, `urlencode`, `urlunparse`;
* `extract_pdfs` — fetches one listing page, scans `div.fileName` /
  `div.pdfString` markers, filters by an optional word, downloads each
  matching file;
* `download_documents` — a while-loop driver that repeatedly calls
  `extract_pdfs` and `decrement_item_in_url`.

The embedding below translates those functions (and the stdlib URL helpers
they call) into executable Lean definitions over `List Char` / `String`.
External effects (HTTP, filesystem) are modelled by a `World` record of
oracles; writes are accumulated in a list; the sleep calls of the driver are
counted.  Known deliberate simplifications, none observable by the theorems
in this file: whitespace sets are the ASCII subsets of Python's Unicode
whitespace, `str.lower` / `int` digit recognition are restricted to ASCII,
the IPv6-bracket validation of `urlsplit` (which raises) is omitted, and the
granularity of U+FFFD replacement characters produced by `unquote` on
malformed percent-escapes is approximate.
-/

set_option maxRecDepth 20000

/-! ## Basic list-of-characters utilities -/

/-- ASCII whitespace recognised by `str.strip()` / `int()` (ASCII subset of
Python's Unicode whitespace). -/
def isPyWs (c : Char) : Bool :=
  c = ' ' || c = '\t' || c = '\n' || c = '\r' || c = '\x0b' || c = '\x0c'

/-- Strip `isPyWs` characters from both ends, as Python `str.strip()`. -/
def stripWs (l : List Char) : List Char :=
  ((l.dropWhile isPyWs).reverse.dropWhile isPyWs).reverse

/-- Split a list at every occurrence of `sep`, keeping empty fields:
Python `str.split(sep)`. -/
def splitOnChar (sep : Char) : List Char → List (List Char)
  | [] => [[]]
  | c :: rest =>
    let r := splitOnChar sep rest
    if c = sep then [] :: r
    else
      match r with
      | [] => [[c]]
      | h :: t => (c :: h) :: t

/-- Split at the first occurrence of `sep`: Python `str.split(sep, 1)` when it
finds a separator (`none` when `sep` does not occur). -/
def splitFirst (sep : Char) : List Char → Option (List Char × List Char)
  | [] => none
  | c :: rest =>
    if c = sep then some ([], rest)
    else (splitFirst sep rest).map (fun p => (c :: p.1, p.2))

/-- `(before last '/', after last '/')`, when a `'/'` occurs. -/
def splitLastSlash (l : List Char) : Option (List Char × List Char) :=
  match splitFirst '/' l.reverse with
  | none => none
  | some p => some (p.2.reverse, p.1.reverse)

/-- Take characters until one of `stops` is hit; returns `(taken, rest)`. -/
def takeUntilAny (stops : List Char) : List Char → List Char × List Char
  | [] => ([], [])
  | c :: rest =>
    if stops.contains c then ([], c :: rest)
    else
      let p := takeUntilAny stops rest
      (c :: p.1, p.2)

/-- Python `in` on strings: `nee` occurs as a contiguous substring of `hay`. -/
def containsSub (hay nee : List Char) : Bool :=
  match hay with
  | [] => nee.isEmpty
  | _ :: t => nee.isPrefixOf hay || containsSub t nee

/-- ASCII lowercasing, as applied by `str.lower()` to ASCII text. -/
def lowerL (l : List Char) : List Char := l.map Char.toLower

/-! ## Python `int(str)` -/

/-- Numeric value of an ASCII digit. -/
def digitVal (c : Char) : Nat := c.toNat - 48

/-- Digit tail of a Python integer literal: digits with single underscores
allowed only between digits. -/
def pyDigitsGo : List Char → Nat → Option Nat
  | [], acc => some acc
  | '_' :: rest, acc =>
    match rest with
    | c :: rest' => if c.isDigit then pyDigitsGo rest' (acc * 10 + digitVal c) else none
    | [] => none
  | c :: rest, acc => if c.isDigit then pyDigitsGo rest (acc * 10 + digitVal c) else none

/-- Unsigned part of a Python integer literal: at least one digit, then
`pyDigitsGo`. -/
def pyIntAbs : List Char → Option Nat
  | [] => none
  | c :: rest => if c.isDigit then pyDigitsGo rest (digitVal c) else none

/-- Python `int(s)`: strip whitespace, optional single sign, ASCII digits with
underscores between digits; `none` models `ValueError`. -/
def pyIntList (l : List Char) : Option Int :=
  match stripWs l with
  | '+' :: rest => (pyIntAbs rest).map (fun n => (n : Int))
  | '-' :: rest => (pyIntAbs rest).map (fun n => -(n : Int))
  | l' => (pyIntAbs l').map (fun n => (n : Int))

/-- ASCII decimal digit character for `n ≤ 9`. -/
def digitChar (n : Nat) : Char :=
  if n = 0 then '0' else if n = 1 then '1' else if n = 2 then '2'
  else if n = 3 then '3' else if n = 4 then '4' else if n = 5 then '5'
  else if n = 6 then '6' else if n = 7 then '7' else if n = 8 then '8' else '9'

/-- Decimal digits of a natural number, most significant first (fuelled by the
number itself, which bounds the digit count). -/
def natDigitsAux : Nat → Nat → List Char → List Char
  | 0, _, acc => acc
  | fuel + 1, n, acc =>
    if n < 10 then digitChar n :: acc
    else natDigitsAux fuel (n / 10) (digitChar (n % 10) :: acc)

/-- Decimal representation of a natural number. -/
def natDigits (n : Nat) : List Char := natDigitsAux (n + 1) n []

/-- Python `str(i)` for an integer. -/
def pyStrInt (i : Int) : List Char :=
  if i < 0 then '-' :: natDigits (-i).toNat else natDigits i.toNat

/-! ## `urllib.parse` quoting (`quote_plus` / `unquote_plus`) -/

/-- The characters `urllib.parse.quote` never encodes (`ALWAYS_SAFE`, with the
default `safe=''` of `urlencode`): ASCII alphanumerics and `_.-~`. -/
def alwaysSafe (c : Char) : Bool :=
  (65 ≤ c.toNat && c.toNat ≤ 90) || (97 ≤ c.toNat && c.toNat ≤ 122) ||
  (48 ≤ c.toNat && c.toNat ≤ 57) ||
  c.toNat = 95 || c.toNat = 46 || c.toNat = 45 || c.toNat = 126

/-- Uppercase hexadecimal digit for `n ≤ 15`, as used by `quote`'s `%XX`. -/
def hexDigitChar (n : Nat) : Char :=
  if n < 10 then digitChar n
  else if n = 10 then 'A' else if n = 11 then 'B' else if n = 12 then 'C'
  else if n = 13 then 'D' else if n = 14 then 'E' else 'F'

/-- UTF-8 bytes of one character (`quote` encodes the UTF-8 encoding). -/
def utf8Bytes (c : Char) : List Nat :=
  let n := c.toNat
  if n < 128 then [n]
  else if n < 2048 then [192 + n / 64, 128 + n % 64]
  else if n < 65536 then [224 + n / 4096, 128 + (n / 64) % 64, 128 + n % 64]
  else [240 + n / 262144, 128 + (n / 4096) % 64, 128 + (n / 64) % 64, 128 + n % 64]

/-- `%XX` escape of one byte. -/
def percentByte (b : Nat) : List Char := ['%', hexDigitChar (b / 16), hexDigitChar (b % 16)]

/-- `quote_plus` on one character: safe characters unchanged, space to `'+'`,
everything else percent-encoded bytewise. -/
def quoteChar (c : Char) : List Char :=
  if alwaysSafe c then [c]
  else if c = ' ' then ['+']
  else ((utf8Bytes c).map percentByte).flatten

/-- `urllib.parse.quote_plus` with the defaults `urlencode` uses. -/
def quote_plus (l : List Char) : List Char := (l.map quoteChar).flatten

/-- Hexadecimal digit test, as accepted inside `%XX` escapes. -/
def isHexDigitChar (c : Char) : Bool :=
  c.isDigit || (97 ≤ c.toNat && c.toNat ≤ 102) || (65 ≤ c.toNat && c.toNat ≤ 70)

/-- Value of a hexadecimal digit. -/
def hexVal (c : Char) : Nat :=
  if c.isDigit then digitVal c
  else if 97 ≤ c.toNat then c.toNat - 87
  else c.toNat - 55

/-- Fuelled first pass of `unquote`: literal characters stay as `Sum.inl`,
valid `%XX` escapes become `Sum.inr byte`.  Each step consumes at least one
character, so fuel = length of the input suffices. -/
def unquoteTokensGo : Nat → List Char → List (Sum Char Nat)
  | 0, _ => []
  | _, [] => []
  | fuel + 1, c :: rest =>
    if c = '%' then
      match rest with
      | h1 :: h2 :: rest2 =>
        if isHexDigitChar h1 && isHexDigitChar h2 then
          Sum.inr (hexVal h1 * 16 + hexVal h2) :: unquoteTokensGo fuel rest2
        else Sum.inl c :: unquoteTokensGo fuel rest
      | _ => Sum.inl c :: unquoteTokensGo fuel rest
    else Sum.inl c :: unquoteTokensGo fuel rest

/-- First pass of `unquote`. -/
def unquoteTokens (l : List Char) : List (Sum Char Nat) := unquoteTokensGo l.length l

/-- The U+FFFD replacement character used by `errors='replace'`. -/
def replChar : Char := Char.ofNat 65533

/-- One step of fuelled UTF-8 decoding with replacement characters on errors
(replacement granularity approximates CPython's `errors='replace'`).  Each
step consumes at least one byte, so fuel = length of the byte list suffices. -/
def utf8DecodeGo : Nat → List Nat → List Char
  | 0, _ => []
  | _, [] => []
  | fuel + 1, b :: bs =>
    if b < 128 then Char.ofNat b :: utf8DecodeGo fuel bs
    else if b < 194 then replChar :: utf8DecodeGo fuel bs
    else if b < 224 then
      match bs with
      | b1 :: bs' =>
        if 128 ≤ b1 && b1 < 192 then
          Char.ofNat ((b - 192) * 64 + (b1 - 128)) :: utf8DecodeGo fuel bs'
        else replChar :: utf8DecodeGo fuel bs
      | [] => [replChar]
    else if b < 240 then
      match bs with
      | b1 :: b2 :: bs' =>
        if (128 ≤ b1 && b1 < 192) && (128 ≤ b2 && b2 < 192) then
          let n := (b - 224) * 4096 + (b1 - 128) * 64 + (b2 - 128)
          (if n < 2048 || (55296 ≤ n && n < 57344) then replChar else Char.ofNat n) ::
            utf8DecodeGo fuel bs'
        else replChar :: utf8DecodeGo fuel bs
      | _ => [replChar]
    else if b < 245 then
      match bs with
      | b1 :: b2 :: b3 :: bs' =>
        if (128 ≤ b1 && b1 < 192) && (128 ≤ b2 && b2 < 192) && (128 ≤ b3 && b3 < 192) then
          let n := (b - 240) * 262144 + (b1 - 128) * 4096 + (b2 - 128) * 64 + (b3 - 128)
          (if n < 65536 || 1114111 < n then replChar else Char.ofNat n) :: utf8DecodeGo fuel bs'
        else replChar :: utf8DecodeGo fuel bs
      | _ => [replChar]
    else replChar :: utf8DecodeGo fuel bs

/-- Decode a byte list as UTF-8 with replacement characters on errors. -/
def utf8Decode (l : List Nat) : List Char := utf8DecodeGo l.length l

/-- Gather the maximal leading run of escaped bytes; returns
`(bytes, remainder)`. -/
def spanBytes : List (Sum Char Nat) → List Nat × List (Sum Char Nat)
  | Sum.inr b :: rest =>
    let p := spanBytes rest
    (b :: p.1, p.2)
  | l => ([], l)

/-- Fuelled second pass of `unquote`: emit literals, gather maximal runs of
escaped bytes and UTF-8-decode each run.  Each step consumes at least one
token, so fuel = length of the token list suffices. -/
def decodeTokensGo : Nat → List (Sum Char Nat) → List Char
  | 0, _ => []
  | _, [] => []
  | fuel + 1, Sum.inl c :: rest => c :: decodeTokensGo fuel rest
  | fuel + 1, Sum.inr b :: rest =>
    let p := spanBytes rest
    utf8Decode (b :: p.1) ++ decodeTokensGo fuel p.2

/-- Second pass of `unquote`. -/
def decodeTokens (l : List (Sum Char Nat)) : List Char := decodeTokensGo l.length l

/-- `urllib.parse.unquote` with `encoding='utf-8', errors='replace'`. -/
def unquoteL (l : List Char) : List Char := decodeTokens (unquoteTokens l)

/-- The `.replace('+', ' ')` step `parse_qsl` applies before unquoting. -/
def plusToSpace (l : List Char) : List Char := l.map (fun c => if c = '+' then ' ' else c)

/-- `unquote_plus`, as applied by `parse_qsl` to names and values. -/
def unquotePlus (l : List Char) : List Char := unquoteL (plusToSpace l)

/-! ## `urllib.parse.urlparse` / `urlunparse` -/

/-- Result tuple of `urlparse` (scheme, netloc, path, params, query, fragment). -/
structure ParseResult where
  scheme : String
  netloc : String
  path : String
  params : String
  query : String
  fragment : String
deriving DecidableEq, Repr

/-- C0-control-or-space characters stripped from the ends of a URL by
`urlsplit`. -/
def isC0OrSpace (c : Char) : Bool := c.toNat ≤ 32

/-- The bytes `urlsplit` removes anywhere in the URL (tab, CR, LF). -/
def isUnsafeUrlByte (c : Char) : Bool := c = '\t' || c = '\r' || c = '\n'

/-- Characters allowed in a URL scheme after the first letter. -/
def schemeCharOk (c : Char) : Bool := c.isAlphanum || c = '+' || c = '-' || c = '.'

/-- Extract the (lowercased) scheme, as `urlsplit` does: everything before the
first `':'` when it starts with a letter and is made of scheme characters. -/
def splitScheme (l : List Char) : List Char × List Char :=
  match splitFirst ':' l with
  | none => ([], l)
  | some p =>
    match p.1 with
    | [] => ([], l)
    | c :: rest =>
      if c.isAlpha && rest.all schemeCharOk then ((c :: rest).map Char.toLower, p.2)
      else ([], l)

/-- Extract the netloc when the remainder starts with `"//"`: up to the next
`'/'`, `'?'` or `'#'`. -/
def splitNetloc (l : List Char) : List Char × List Char :=
  match l with
  | '/' :: '/' :: rest => takeUntilAny ['/', '?', '#'] rest
  | _ => ([], l)

/-- Split off the fragment at the first `'#'`. -/
def splitFragment (l : List Char) : List Char × List Char :=
  match splitFirst '#' l with
  | some p => p
  | none => (l, [])

/-- Split off the query at the first `'?'`. -/
def splitQuery (l : List Char) : List Char × List Char :=
  match splitFirst '?' l with
  | some p => p
  | none => (l, [])

/-- Schemes for which `urlparse` splits `;params` off the path. -/
def usesParams : List String :=
  ["", "ftp", "hdl", "prospero", "http", "imap", "https", "shttp", "rtsp",
   "rtspu", "sip", "sips", "mms", "sftp", "tel"]

/-- `_splitparams`: split the path at the first `';'` of its last segment. -/
def splitParamsPath (p : List Char) : List Char × List Char :=
  match splitLastSlash p with
  | some q =>
    (match splitFirst ';' q.2 with
     | some r => (q.1 ++ '/' :: r.1, r.2)
     | none => (p, []))
  | none =>
    match splitFirst ';' p with
    | some r => (r.1, r.2)
    | none => (p, [])

/-- Strip C0 controls and spaces from both ends of a URL. -/
def stripC0Space (l : List Char) : List Char :=
  ((l.dropWhile isC0OrSpace).reverse.dropWhile isC0OrSpace).reverse

/-- `urllib.parse.urlparse` (via `urlsplit` plus the params split). -/
def urlparse (url : String) : ParseResult :=
  let l0 := (stripC0Space url.data).filter (fun c => !isUnsafeUrlByte c)
  let s1 := splitScheme l0
  let s2 := splitNetloc s1.2
  let s3 := splitFragment s2.2
  let s4 := splitQuery s3.1
  let scheme : String := ⟨s1.1⟩
  let pp :=
    if usesParams.contains scheme && s4.1.contains ';' then splitParamsPath s4.1
    else (s4.1, [])
  ⟨scheme, ⟨s2.1⟩, ⟨pp.1⟩, ⟨pp.2⟩, ⟨s4.2⟩, ⟨s3.2⟩⟩

/-- `urllib.parse.urlunparse` (via `urlunsplit`). -/
def urlunparse (p : ParseResult) : String :=
  let url0 := if p.params.isEmpty then p.path.data else p.path.data ++ ';' :: p.params.data
  let url1 :=
    if !p.netloc.isEmpty || url0.take 2 = ['/', '/'] then
      '/' :: '/' :: p.netloc.data ++
        (if !url0.isEmpty && url0.head? ≠ some '/' then '/' :: url0 else url0)
    else url0
  let url2 := if !p.scheme.isEmpty then p.scheme.data ++ ':' :: url1 else url1
  let url3 := if !p.query.isEmpty then url2 ++ '?' :: p.query.data else url2
  let url4 := if !p.fragment.isEmpty then url3 ++ '#' :: p.fragment.data else url3
  ⟨url4⟩

/-! ## `urllib.parse.parse_qs` / `urlencode` -/

/-- One `k=v` field of a query string, as `parse_qsl` treats it: empty fields
and fields without `'='` or with an empty value are dropped
(`keep_blank_values=False`); names and values are `unquote_plus`-decoded. -/
def parseField (f : List Char) : Option (List Char × List Char) :=
  if f.isEmpty then none
  else
    match splitFirst '=' f with
    | none => none
    | some p => if p.2.isEmpty then none else some (unquotePlus p.1, unquotePlus p.2)

/-- `urllib.parse.parse_qsl` (modern separator behaviour: `'&'` only). -/
def parse_qsl (q : List Char) : List (List Char × List Char) :=
  (splitOnChar '&' q).filterMap parseField

/-- Append one value to the list held by a key, inserting the key at the end
when missing — the dict-building step of `parse_qs`, with keys in order of
first occurrence. -/
def addToDict (d : List (List Char × List (List Char))) (k v : List Char) :
    List (List Char × List (List Char)) :=
  match d with
  | [] => [(k, [v])]
  | p :: rest => if p.1 = k then (p.1, p.2 ++ [v]) :: rest else p :: addToDict rest k v

/-- `urllib.parse.parse_qs`: group `parse_qsl` pairs by key. -/
def parse_qs (q : List Char) : List (List Char × List (List Char)) :=
  (parse_qsl q).foldl (fun d p => addToDict d p.1 p.2) []

/-- Dict lookup (`'item' in query_params` / `query_params['item']`). -/
def dictGet (d : List (List Char × List (List Char))) (k : List Char) :
    Option (List (List Char)) :=
  match d with
  | [] => none
  | p :: rest => if p.1 = k then some p.2 else dictGet rest k

/-- Dict assignment `d[k] = v`: replace in place, append when missing. -/
def dictSet (d : List (List Char × List (List Char))) (k : List Char) (v : List (List Char)) :
    List (List Char × List (List Char)) :=
  match d with
  | [] => [(k, v)]
  | p :: rest => if p.1 = k then (k, v) :: rest else p :: dictSet rest k v

/-- One `key=value` component emitted by `urlencode`. -/
def urlencodePair (k v : List Char) : List Char := quote_plus k ++ '=' :: quote_plus v

/-- Join components with `'&'`. -/
def joinAmp : List (List Char) → List Char
  | [] => []
  | [x] => x
  | x :: xs => x ++ '&' :: joinAmp xs

/-- `urllib.parse.urlencode(d, doseq=True)` on a dict of string lists. -/
def urlencode (d : List (List Char × List (List Char))) : List Char :=
  joinAmp ((d.map (fun p => p.2.map (urlencodePair p.1))).flatten)

/-! ## `decrement_item_in_url` -/

/-- The fixed pagination query key. -/
def itemKey : List Char := "item".data

/-- `decrement_item_in_url` from the script: parse the URL, read the first
`item` value, return `none` when it is missing, unparseable or `≤ 1`,
otherwise rebuild the URL with `item` set to the decremented value. -/
def decrement_item_in_url (url : String) : Option String :=
  let parsed := urlparse url
  let query_params := parse_qs parsed.query.data
  match dictGet query_params itemKey with
  | none => none
  | some vs =>
    match pyIntList (vs.headD []) with
    | none => none
    | some item_value =>
      if item_value ≤ 1 then none
      else
        some (urlunparse
          { parsed with query := ⟨urlencode (dictSet query_params itemKey [pyStrInt (item_value - 1)])⟩ })

/-! ## `extract_pdfs` -/

/-- The `div.fileName` / `div.pdfString` marker elements of a listing page, in
document order. -/
inductive Marker where
  | fileName (s : String)
  | pdfString (s : String)
deriving DecidableEq, Repr

/-- External effects: fetching+parsing a page address yields its markers (or
`none` on a network error / bad status), fetching a retrieval address yields
the file bytes (or `none` on failure). -/
structure World where
  fetchPage : String → Option (List Marker)
  fetchDoc : String → Option String

/-- Python `str.strip()` on the text of a marker element. -/
def pyStrip (s : String) : String := ⟨stripWs s.data⟩

/-- `find_next('div', class_='pdfString')`: text of the nearest following
`pdfString` marker in document order. -/
def firstPdfString : List Marker → Option String
  | [] => none
  | Marker.pdfString s :: _ => some (pyStrip s)
  | Marker.fileName _ :: rest => firstPdfString rest

/-- One `(stripped label, associated document id)` pair per `fileName` marker,
in document order. -/
def entriesOf : List Marker → List (String × Option String)
  | [] => []
  | Marker.fileName s :: rest => (pyStrip s, firstPdfString rest) :: entriesOf rest
  | Marker.pdfString _ :: rest => entriesOf rest

/-- The filter decision of `extract_pdfs`: `should_download` is `True` unless a
truthy `filter_word` is given, in which case it is the case-insensitive
substring test. -/
def should_download (filterWord : Option String) (filename : String) : Bool :=
  match filterWord with
  | none => true
  | some w => if w.isEmpty then true else containsSub (lowerL filename.data) (lowerL w.data)

/-- The invalid-filename character class `[\\/*?:"<>|]` of the `re.sub` call. -/
def isInvalidFilenameChar (c : Char) : Bool :=
  c = '\\' || c = '/' || c = '*' || c = '?' || c = ':' || c = '"' || c = '<' || c = '>' || c = '|'

/-- `re.sub(r'[\\/*?:"<>|]', "_", filename)`. -/
def clean_filename (s : String) : String :=
  ⟨s.data.map (fun c => if isInvalidFilenameChar c then '_' else c)⟩

/-- `os.path.join` for the two-argument case used by the script. -/
def pathJoin (a b : String) : String :=
  if b.data.head? = some '/' then b
  else if a.isEmpty || a.data.getLast? = some '/' then a ++ b
  else a ++ "/" ++ b

/-- The fixed retrieval-address template. -/
def pdf_url (documentId : String) : String :=
  "https://www.cityoftulsa.org/apps/COTDisplayDocument?DocumentType=CouncilDocument&DocumentIdentifiers="
    ++ documentId

/-- Observable outcome of `extract_pdfs`: the returned count and the
`(path, bytes)` file writes in order. -/
structure ExtractResult where
  count : Nat
  writes : List (String × String)
deriving DecidableEq, Repr

/-- Body of the `for file_element in file_elements` loop for one entry. -/
def processEntry (w : World) (outputDir : String) (filterWord : Option String)
    (acc : ExtractResult) (e : String × Option String) : ExtractResult :=
  if should_download filterWord e.1 then
    match e.2 with
    | some documentId =>
      match w.fetchDoc (pdf_url documentId) with
      | some content =>
        ⟨acc.count + 1, acc.writes ++ [(pathJoin outputDir (clean_filename e.1), content)]⟩
      | none => acc
    | none => acc
  else acc

/-- `extract_pdfs` from the script: `none` from the page fetch models the
caught `RequestException` (network error or `raise_for_status`), yielding 0. -/
def extract_pdfs (w : World) (url : String) (outputDir : String)
    (filterWord : Option String) : ExtractResult :=
  match w.fetchPage url with
  | none => ⟨0, []⟩
  | some markers =>
    let entries := entriesOf markers
    if entries.isEmpty then ⟨0, []⟩
    else entries.foldl (processEntry w outputDir filterWord) ⟨0, []⟩

/-! ## `download_documents` -/

/-- Python truthiness of the current-URL variable (`None` and `""` falsy). -/
def truthyOpt : Option String → Bool
  | none => false
  | some s => !s.isEmpty

/-- Python truthiness of the `max_pages` argument (`None` and `0` falsy). -/
def truthyOptInt : Option Int → Bool
  | none => false
  | some n => decide (n ≠ 0)

/-- The `while current_url and (max_pages is None or page_count < max_pages)`
condition. -/
def loopCond (maxPages : Option Int) (cur : Option String) (count : Nat) : Bool :=
  truthyOpt cur && (maxPages.isNone || decide ((count : Int) < maxPages.getD 0))

/-- Trace of one driver run: page and download counters, the per-page
`extract_pdfs` counts, all file writes, the number of `time.sleep` calls, the
final value of `current_url`, and whether the loop ran to completion within
the supplied fuel. -/
structure RunResult where
  pages : Nat
  downloads : Nat
  perPage : List Nat
  writes : List (String × String)
  sleeps : Nat
  finalUrl : Option String
  finished : Bool
deriving DecidableEq, Repr

/-- The driver's while-loop.  Fuel only bounds the number of iterations the
model will unfold; `finished = false` records that the bound was hit while the
loop would have continued. -/
def downloadLoop (w : World) (outputDir : String) (filterWord : Option String)
    (maxPages : Option Int) : Nat → Option String → RunResult → RunResult
  | 0, cur, acc =>
    if loopCond maxPages cur acc.pages then { acc with finalUrl := cur, finished := false }
    else { acc with finalUrl := cur, finished := true }
  | fuel + 1, cur, acc =>
    if loopCond maxPages cur acc.pages then
      let url := cur.getD ""
      let r := extract_pdfs w url outputDir filterWord
      let next := decrement_item_in_url url
      downloadLoop w outputDir filterWord maxPages fuel next
        { pages := acc.pages + 1
          downloads := acc.downloads + r.count
          perPage := acc.perPage ++ [r.count]
          writes := acc.writes ++ r.writes
          sleeps := acc.sleeps + (if truthyOpt next then 1 else 0)
          finalUrl := next
          finished := true }
    else { acc with finalUrl := cur, finished := true }

/-- The two distinguishable termination log messages of the driver. -/
inductive StopReason where
  | ceiling
  | exhausted
deriving DecidableEq, Repr

/-- Everything `download_documents` makes observable: the run trace, the
termination reason logged after the loop (`none` when neither branch fires),
the final completion log line, and the Python return value — the function body
has no `return` statement, so it is `none`. -/
structure DriverOutcome where
  run : RunResult
  reason : Option StopReason
  finalLog : String
  retval : Option (Nat × Nat)
deriving DecidableEq, Repr

/-- `download_documents` from the script.  `delay` is the sleep duration,
which the model does not observe beyond counting sleeps. -/
def download_documents (w : World) (startUrl : String) (outputDir : String)
    (maxPages : Option Int) (delay : Int) (filterWord : Option String)
    (fuel : Nat) : DriverOutcome :=
  let r := downloadLoop w outputDir filterWord maxPages fuel (some startUrl)
    ⟨0, 0, [], [], 0, some startUrl, true⟩
  let reason : Option StopReason :=
    if truthyOptInt maxPages && decide (maxPages.getD 0 ≤ (r.pages : Int)) then
      some StopReason.ceiling
    else if !truthyOpt r.finalUrl then some StopReason.exhausted
    else none
  { run := r
    reason := reason
    finalLog := "Download complete. Processed " ++ toString r.pages ++
      " pages. Downloaded " ++ toString r.downloads ++ " PDFs."
    retval := none }

/-! ## Concrete addresses, pages and worlds used by the scenario theorems -/

/-- Start address of end-to-end scenario A (`item=3`). -/
def tulsaUrl3 : String := "https://www.cityoftulsa.org/apps/CouncilDocuments?item=3"

/-- The decremented address at `item=2`. -/
def tulsaUrl2 : String := "https://www.cityoftulsa.org/apps/CouncilDocuments?item=2"

/-- The decremented address at `item=1`. -/
def tulsaUrl1 : String := "https://www.cityoftulsa.org/apps/CouncilDocuments?item=1"

/-- Scenario A page at `item=3`: exactly one matching file. -/
def pageA : List Marker := [Marker.fileName "Regular Minutes.pdf", Marker.pdfString "DOC3"]

/-- Scenario A world: one matching file at `item=3`, empty pages at `item=2`
and `item=1`, the one retrieval address succeeds. -/
def worldA : World where
  fetchPage u :=
    if u = tulsaUrl3 then some pageA
    else if u = tulsaUrl2 then some []
    else if u = tulsaUrl1 then some [] else none
  fetchDoc u := if u = pdf_url "DOC3" then some "PDF3BYTES" else none

/-- Scenario D page: two matching files. -/
def pageD : List Marker :=
  [Marker.fileName "Regular Minutes.pdf", Marker.pdfString "DOCA",
   Marker.fileName "Special Minutes.pdf", Marker.pdfString "DOCB"]

/-- Scenario D world: the retrieval fetch for the first file fails, the second
succeeds. -/
def worldD : World where
  fetchPage u := if u = tulsaUrl3 then some pageD else none
  fetchDoc u := if u = pdf_url "DOCB" then some "PDFB" else none

/-- World in which every fetch fails. -/
def worldFail : World where
  fetchPage _ := none
  fetchDoc _ := none

/-- World in which the page fetch at `item=3` fails but later pages exist. -/
def worldC : World where
  fetchPage u := if u = tulsaUrl2 then some [] else if u = tulsaUrl1 then some [] else none
  fetchDoc _ := none

/-- Address whose query has a blank-valued parameter before `item`. -/
def blankParamUrl : String := "https://www.cityoftulsa.org/apps/CouncilDocuments?b=&item=2"

/-- Address with a duplicated `item` key. -/
def dupItemUrl : String := "https://h/p?item=5&x=a&item=9"

/-! ## Query-component views (used to state the C2/C10 theorems) -/

/-- The `&`-separated components of a query string. -/
def comps (q : List Char) : List (List Char) := splitOnChar '&' q

/-- The part of a component before its first `'='` (the whole component when
there is none). -/
def compKeyOf (c : List Char) : List Char :=
  match splitFirst '=' c with
  | some p => p.1
  | none => c

/-- The part of a component after its first `'='` (empty when there is
none). -/
def compValOf (c : List Char) : List Char :=
  match splitFirst '=' c with
  | some p => p.2
  | none => []

/-- A component is canonical when it has shape `k=v` with `k` and `v` nonempty
and made only of characters `quote_plus` leaves unchanged. -/
def canonicalComp (c : List Char) : Bool :=
  match splitFirst '=' c with
  | some p => !p.1.isEmpty && p.1.all alwaysSafe && !p.2.isEmpty && p.2.all alwaysSafe
  | none => false

/-- No element occurs twice. -/
def distinctList : List (List Char) → Bool
  | [] => true
  | x :: xs => !xs.contains x && distinctList xs

/-- A query string is canonical when all its components are canonical and its
keys are pairwise distinct. -/
def canonicalQuery (q : List Char) : Bool :=
  (comps q).all canonicalComp && distinctList ((comps q).map compKeyOf)

/-- The query with the value of every `item` component replaced by `newVal`
and everything else byte-identical, in order. -/
def replaceItem (q : List Char) (newVal : List Char) : List Char :=
  joinAmp ((comps q).map (fun c => if compKeyOf c = itemKey then itemKey ++ '=' :: newVal else c))

/-- The `&`-separated component list `urlencode` builds before joining. -/
def encList (d : List (List Char × List (List Char))) : List (List Char) :=
  (d.map (fun p => p.2.map (urlencodePair p.1))).flatten

/-! ## Helper lemmas about the driver loop -/

/-- When the while-condition is false the loop returns immediately. -/
theorem downloadLoop_stop (w : World) (outputDir : String) (fw : Option String)
    (mp : Option Int) (fuel : Nat) (cur : Option String) (acc : RunResult)
    (h : loopCond mp cur acc.pages = false) :
    downloadLoop w outputDir fw mp fuel cur acc = { acc with finalUrl := cur, finished := true } := by
  cases fuel <;> simp [downloadLoop, h]

/-- The page counter never decreases across the loop. -/
theorem downloadLoop_pages_ge (w : World) (outputDir : String) (fw : Option String)
    (mp : Option Int) :
    ∀ (fuel : Nat) (cur : Option String) (acc : RunResult),
      acc.pages ≤ (downloadLoop w outputDir fw mp fuel cur acc).pages := by
  intro fuel
  induction fuel with
  | zero => intro cur acc; simp only [downloadLoop]; split <;> simp
  | succ f ih =>
    intro cur acc
    obtain ⟨p, d, pp, ws, s, fu, fin⟩ := acc
    simp only [downloadLoop]
    split
    · refine Nat.le_trans (Nat.le_succ p) ?_
      exact ih (decrement_item_in_url (cur.getD ""))
        ⟨p + 1, d + (extract_pdfs w (cur.getD "") outputDir fw).count,
         pp ++ [(extract_pdfs w (cur.getD "") outputDir fw).count],
         ws ++ (extract_pdfs w (cur.getD "") outputDir fw).writes,
         s + (if truthyOpt (decrement_item_in_url (cur.getD "")) = true then 1 else 0),
         decrement_item_in_url (cur.getD ""), true⟩
    · simp

/-- With a page ceiling `m`, the loop never pushes the page counter past `m`. -/
theorem downloadLoop_pages_le (w : World) (outputDir : String) (fw : Option String) (m : Int) :
    ∀ (fuel : Nat) (cur : Option String) (acc : RunResult),
      (acc.pages : Int) ≤ m →
      ((downloadLoop w outputDir fw (some m) fuel cur acc).pages : Int) ≤ m := by
  intro fuel
  induction fuel with
  | zero => intro cur acc h; simp only [downloadLoop]; split <;> simpa using h
  | succ f ih =>
    intro cur acc h
    simp only [downloadLoop]
    split
    · rename_i hcond
      have hlt : ((acc.pages : Int) < m) := by
        have := hcond
        simp [loopCond] at this
        exact this.2
      exact ih _ _ (by simpa using hlt)
    · simpa using h

/-- Loop invariant: the download total is the sum of the per-page counts and
the page counter is their number. -/
theorem downloadLoop_totals (w : World) (outputDir : String) (fw : Option String)
    (mp : Option Int) :
    ∀ (fuel : Nat) (cur : Option String) (acc : RunResult),
      acc.downloads = acc.perPage.sum → acc.pages = acc.perPage.length →
      (downloadLoop w outputDir fw mp fuel cur acc).downloads =
        (downloadLoop w outputDir fw mp fuel cur acc).perPage.sum ∧
      (downloadLoop w outputDir fw mp fuel cur acc).pages =
        (downloadLoop w outputDir fw mp fuel cur acc).perPage.length := by
  intro fuel
  induction fuel with
  | zero =>
    intro cur acc h1 h2
    simp only [downloadLoop]; split <;> simp [h1, h2]
  | succ f ih =>
    intro cur acc h1 h2
    simp only [downloadLoop]
    split
    · exact ih _ _ (by simp [h1]) (by simp [h2])
    · simp [h1, h2]

/-- In a finished run that entered the loop, the number of sleeps equals the
number of pages minus one when the final address was falsy, and equals the
number of pages when it was truthy (ceiling stop with a next address ready). -/
theorem downloadLoop_sleeps (w : World) (outputDir : String) (fw : Option String)
    (mp : Option Int) :
    ∀ (fuel : Nat) (cur : Option String) (acc : RunResult),
      loopCond mp cur acc.pages = true →
      (downloadLoop w outputDir fw mp fuel cur acc).finished = true →
      (downloadLoop w outputDir fw mp fuel cur acc).sleeps +
        (if truthyOpt (downloadLoop w outputDir fw mp fuel cur acc).finalUrl then 0 else 1) =
      acc.sleeps + ((downloadLoop w outputDir fw mp fuel cur acc).pages - acc.pages) := by
  intro fuel
  induction fuel with
  | zero =>
    intro cur acc hc hf
    simp [downloadLoop, hc] at hf
  | succ f ih =>
    intro cur acc hc hf
    obtain ⟨p, d, pp, ws, s, fu, fin⟩ := acc
    simp only [downloadLoop] at hf ⊢
    simp only [hc, if_true] at hf ⊢
    by_cases hc2 : loopCond mp (decrement_item_in_url (cur.getD "")) (p + 1) = true
    · have htr : truthyOpt (decrement_item_in_url (cur.getD "")) = true := by
        have h' := hc2
        simp [loopCond] at h'
        exact h'.1
      simp only [htr, if_true, reduceIte] at hf ⊢
      have hge := downloadLoop_pages_ge w outputDir fw mp f (decrement_item_in_url (cur.getD ""))
        ⟨p + 1, d + (extract_pdfs w (cur.getD "") outputDir fw).count,
         pp ++ [(extract_pdfs w (cur.getD "") outputDir fw).count],
         ws ++ (extract_pdfs w (cur.getD "") outputDir fw).writes,
         s + 1, decrement_item_in_url (cur.getD ""), true⟩
      have hih := ih (decrement_item_in_url (cur.getD ""))
        ⟨p + 1, d + (extract_pdfs w (cur.getD "") outputDir fw).count,
         pp ++ [(extract_pdfs w (cur.getD "") outputDir fw).count],
         ws ++ (extract_pdfs w (cur.getD "") outputDir fw).writes,
         s + 1, decrement_item_in_url (cur.getD ""), true⟩
        (by simpa using hc2) hf
      dsimp only at hge hih ⊢
      omega
    · rw [downloadLoop_stop w outputDir fw mp f _ _ (by simpa using hc2)] at hf ⊢
      cases htr : truthyOpt (decrement_item_in_url (cur.getD "")) <;>
        simp [htr] <;> omega

/-! ## Helper lemmas about the page extractor -/

/-- The empty needle is a substring of everything (Python `"" in s`). -/
theorem containsSub_nil (hay : List Char) : containsSub hay [] = true := by
  cases hay <;> simp [containsSub, List.isPrefixOf]

/-- Folding the per-entry body over entries whose matching members all have an
identifier and a successful fetch appends exactly the writes of the matching
entries, and counts them. -/
theorem foldl_processEntry (w : World) (outputDir : String) (fw : Option String) :
    ∀ (entries : List (String × Option String)) (acc : ExtractResult),
      (∀ e ∈ entries, should_download fw e.1 = true →
        e.2.isSome = true ∧ (w.fetchDoc (pdf_url (e.2.getD ""))).isSome = true) →
      (entries.foldl (processEntry w outputDir fw) acc).writes =
        acc.writes ++ (entries.filter (fun e => should_download fw e.1)).map
          (fun e => (pathJoin outputDir (clean_filename e.1),
            (w.fetchDoc (pdf_url (e.2.getD ""))).getD "")) ∧
      (entries.foldl (processEntry w outputDir fw) acc).count =
        acc.count + (entries.filter (fun e => should_download fw e.1)).length := by
  intro entries
  induction entries with
  | nil => intro acc h; simp
  | cons e rest ih =>
    intro acc h
    by_cases hsd : should_download fw e.1 = true
    · obtain ⟨hid, hdoc⟩ := h e (List.mem_cons_self e rest) hsd
      obtain ⟨docId, hdocId⟩ := Option.isSome_iff_exists.mp hid
      obtain ⟨content, hcontent⟩ := Option.isSome_iff_exists.mp hdoc
      have hgetD : e.2.getD "" = docId := by rw [hdocId]; rfl
      have hcontent' : w.fetchDoc (pdf_url docId) = some content := by
        rw [← hgetD]; exact hcontent
      have hcval : (w.fetchDoc (pdf_url (e.2.getD ""))).getD "" = content := by
        rw [hcontent]; rfl
      have hstep : processEntry w outputDir fw acc e =
          ⟨acc.count + 1, acc.writes ++
            [(pathJoin outputDir (clean_filename e.1), content)]⟩ := by
        simp only [processEntry, hsd, if_true, hdocId]
        rw [hcontent']
      have hrest := ih (processEntry w outputDir fw acc e)
        (fun e' he' hsd' => h e' (List.mem_cons_of_mem e he') hsd')
      rw [hstep] at hrest
      rw [List.foldl_cons, hstep]
      simp only [List.filter_cons, hsd, if_true, List.map_cons, List.length_cons, hcval]
      constructor
      · rw [hrest.1]; simp
      · rw [hrest.2]; simp; omega
    · have hstep : processEntry w outputDir fw acc e = acc := by
        simp only [processEntry]
        rw [if_neg hsd]
      have hrest := ih (processEntry w outputDir fw acc e)
        (fun e' he' hsd' => h e' (List.mem_cons_of_mem e he') hsd')
      rw [hstep] at hrest
      rw [List.foldl_cons, hstep]
      simp only [List.filter_cons, if_neg hsd]
      exact hrest

/-! ## Claim theorems -/

/-- C1 (counterexample): in end-to-end scenario A (start at `item=3`,
`max_pages=5`, one matching file at `item=3`, none at `item=2`), the traversal
does NOT process exactly 2 pages: the loop also processes `item=1`, because
the decrement from `item=2` yields `item=1` and only the decrement from
`item=1` yields `None`, so 3 pages are processed. -/
theorem c1_scenarioA_counterexample :
    (download_documents worldA tulsaUrl3 "out" (some 5) 1 (some "Minutes") 10).run.pages = 3 ∧
    ¬ (download_documents worldA tulsaUrl3 "out" (some 5) 1 (some "Minutes") 10).run.pages = 2 := by
  decide

/-- C1 (amended): in scenario A the traversal processes exactly 3 pages
(`item=3`, `item=2`, `item=1`), terminates because the address is exhausted
(not because of the page ceiling), and accumulates exactly 1 download. -/
theorem c1_scenarioA_three_pages :
    download_documents worldA tulsaUrl3 "out" (some 5) 1 (some "Minutes") 10 =
      ⟨⟨3, 1, [1, 0, 0], [("out/Regular Minutes.pdf", "PDF3BYTES")], 2, none, true⟩,
       some StopReason.exhausted,
       "Download complete. Processed 3 pages. Downloaded 1 PDFs.", none⟩ := by
  decide

/-- C3: `decrement_item_in_url` returns `none` exactly when, in the parsed
query, the `item` key is absent, its first value does not parse as an
integer, or that integer is `≤ 1`; in every other case an address is
produced. -/
theorem c3_decrement_none_iff (url : String) :
    decrement_item_in_url url = none ↔
      dictGet (parse_qs (urlparse url).query.data) itemKey = none ∨
      (∃ vs, dictGet (parse_qs (urlparse url).query.data) itemKey = some vs ∧
        pyIntList (vs.headD []) = none) ∨
      (∃ vs n, dictGet (parse_qs (urlparse url).query.data) itemKey = some vs ∧
        pyIntList (vs.headD []) = some n ∧ n ≤ 1) := by
  simp only [decrement_item_in_url]
  cases hd : dictGet (parse_qs (urlparse url).query.data) itemKey with
  | none => simp
  | some vs =>
    cases hv : pyIntList (vs.head?.getD []) with
    | none => simp [List.headD_eq_head?_getD, hv]
    | some n =>
      by_cases hn : n ≤ 1
      · simp [List.headD_eq_head?_getD, hv, hn]
      · simp [List.headD_eq_head?_getD, hv, hn]

/-- C4 (counterexample): with `max_pages=1` and a decrementable start address
the driver sleeps after the final (only) processed page: it computes the
decrement, finds a truthy next address, sleeps, and only then hits the page
ceiling — so one sleep occurs although no further iteration runs. -/
theorem c4_sleep_after_final_page_counterexample :
    (download_documents worldA tulsaUrl3 "out" (some 1) 1 (some "Minutes") 5).run.pages = 1 ∧
    (download_documents worldA tulsaUrl3 "out" (some 1) 1 (some "Minutes") 5).run.sleeps = 1 ∧
    ¬ (download_documents worldA tulsaUrl3 "out" (some 1) 1 (some "Minutes") 5).run.sleeps <
        (download_documents worldA tulsaUrl3 "out" (some 1) 1 (some "Minutes") 5).run.pages := by
  decide

/-- C4 (amended): in any finished run that entered the loop, the driver sleeps
exactly once per iteration whose decrement produced a truthy next address:
sleeps = pages − 1 when the run ends with an exhausted address, and
sleeps = pages when it ends at the page ceiling with a next address available
— i.e. the delay is governed solely by the decrement result, and the ceiling
is only checked at the top of the next iteration, after the decrement. -/
theorem c4_sleeps_iff_next_address (w : World) (start outputDir : String)
    (maxPages : Option Int) (delay : Int) (fw : Option String) (fuel : Nat)
    (h0 : loopCond maxPages (some start) 0 = true)
    (hf : (download_documents w start outputDir maxPages delay fw fuel).run.finished = true) :
    (download_documents w start outputDir maxPages delay fw fuel).run.sleeps +
      (if truthyOpt (download_documents w start outputDir maxPages delay fw fuel).run.finalUrl = true
        then 0 else 1) =
    (download_documents w start outputDir maxPages delay fw fuel).run.pages := by
  have h := downloadLoop_sleeps w outputDir fw maxPages fuel (some start)
    ⟨0, 0, [], [], 0, some start, true⟩ h0 hf
  simpa using h

/-- Witness for C4 (amended) at a concrete run: 3 pages, exhausted address,
2 sleeps. -/
theorem c4_sleeps_iff_next_address_witness :
    (download_documents worldA tulsaUrl3 "out" none 1 (some "Minutes") 10).run.sleeps +
      (if truthyOpt (download_documents worldA tulsaUrl3 "out" none 1 (some "Minutes") 10).run.finalUrl = true
        then 0 else 1) =
    (download_documents worldA tulsaUrl3 "out" none 1 (some "Minutes") 10).run.pages :=
  c4_sleeps_iff_next_address worldA tulsaUrl3 "out" none 1 (some "Minutes") 10
    (by decide) (by decide)

/-- C5: a page-level fetch failure yields 0 downloads and no writes (the
traversal then continues, as the concrete run with a failing first page
shows: 3 pages are still processed); a retrieval-level fetch failure for one
of two matching files skips only that file — the other is still written and
the extractor returns 1. -/
theorem c5_fetch_failures_recovered_locally :
    (∀ (w : World) (url outputDir : String) (fw : Option String),
      w.fetchPage url = none → extract_pdfs w url outputDir fw = ⟨0, []⟩) ∧
    extract_pdfs worldD tulsaUrl3 "out" (some "Minutes") =
      ⟨1, [("out/Special Minutes.pdf", "PDFB")]⟩ ∧
    (download_documents worldC tulsaUrl3 "out" none 1 (some "Minutes") 10).run.pages = 3 ∧
    (download_documents worldC tulsaUrl3 "out" none 1 (some "Minutes") 10).run.downloads = 0 := by
  refine ⟨?_, by decide, by decide, by decide⟩
  intro w url outputDir fw h
  unfold extract_pdfs
  rw [h]

/-- Witness for C5 at a concrete failing page fetch. -/
theorem c5_fetch_failures_recovered_locally_witness :
    extract_pdfs worldFail tulsaUrl3 "out" none = ⟨0, []⟩ :=
  c5_fetch_failures_recovered_locally.1 worldFail tulsaUrl3 "out" none rfl

/-- C6: filename sanitization replaces each character of `\/​*?:"<>|` with an
underscore, so the output has the same length as the input and contains none
of those characters. -/
theorem c6_clean_filename_sanitizes (s : String) :
    (clean_filename s).length = s.length ∧
    ∀ c ∈ (clean_filename s).data, isInvalidFilenameChar c = false := by
  constructor
  · show (s.data.map fun c => if isInvalidFilenameChar c then '_' else c).length = s.data.length
    rw [List.length_map]
  · intro c hc
    have hc' : c ∈ s.data.map (fun c => if isInvalidFilenameChar c then '_' else c) := hc
    rcases List.mem_map.mp hc' with ⟨a, -, rfl⟩
    by_cases h : isInvalidFilenameChar a = true
    · rw [if_pos h]; decide
    · rw [if_neg h]
      simpa using h

/-- On a successfully fetched page, `extract_pdfs` is the fold of the
per-entry body (the empty-page early return coincides with the empty fold). -/
theorem extract_pdfs_eq_foldl (w : World) (url outputDir : String) (fw : Option String)
    (markers : List Marker) (hpage : w.fetchPage url = some markers) :
    extract_pdfs w url outputDir fw =
      (entriesOf markers).foldl (processEntry w outputDir fw) ⟨0, []⟩ := by
  unfold extract_pdfs
  rw [hpage]
  show (if (entriesOf markers).isEmpty then (⟨0, []⟩ : ExtractResult)
    else (entriesOf markers).foldl (processEntry w outputDir fw) ⟨0, []⟩) =
    (entriesOf markers).foldl (processEntry w outputDir fw) ⟨0, []⟩
  cases hentries : entriesOf markers with
  | nil => simp
  | cons a b => simp

/-- C7: the filter decision equals the case-insensitive substring test for
every provided filter word (including the empty one, whose Python-falsy
short-circuit coincides with the trivially-true empty-substring test), is
`true` for every label when the word is absent, and on a successfully fetched
page whose matching references all resolve and download, the files written
are exactly the references passing the filter, in order, and the returned
count is their number. -/
theorem c7_filter_download_iff :
    (∀ (fw name : String),
      should_download (some fw) name = containsSub (lowerL name.data) (lowerL fw.data)) ∧
    (∀ name : String, should_download none name = true) ∧
    (∀ (w : World) (url outputDir : String) (fw : Option String) (markers : List Marker),
      w.fetchPage url = some markers →
      (∀ e ∈ entriesOf markers, should_download fw e.1 = true →
        e.2.isSome = true ∧ (w.fetchDoc (pdf_url (e.2.getD ""))).isSome = true) →
      (extract_pdfs w url outputDir fw).writes =
        ((entriesOf markers).filter (fun e => should_download fw e.1)).map
          (fun e => (pathJoin outputDir (clean_filename e.1),
            (w.fetchDoc (pdf_url (e.2.getD ""))).getD "")) ∧
      (extract_pdfs w url outputDir fw).count =
        ((entriesOf markers).filter (fun e => should_download fw e.1)).length) := by
  refine ⟨?_, fun name => rfl, ?_⟩
  · intro fw name
    by_cases h : fw.isEmpty
    · have hfw : fw = "" := (String.isEmpty_iff fw).mp h
      subst hfw
      simp only [should_download, h, if_true]
      exact (containsSub_nil _).symm
    · simp [should_download, h]
  · intro w url outputDir fw markers hpage hok
    have h := foldl_processEntry w outputDir fw (entriesOf markers) ⟨0, []⟩ hok
    rw [extract_pdfs_eq_foldl w url outputDir fw markers hpage]
    simpa using h

/-- Witness for C7 on the concrete scenario A page. -/
theorem c7_filter_download_iff_witness :
    (extract_pdfs worldA tulsaUrl3 "out" (some "Minutes")).writes =
      ((entriesOf pageA).filter (fun e => should_download (some "Minutes") e.1)).map
        (fun e => (pathJoin "out" (clean_filename e.1),
          (worldA.fetchDoc (pdf_url (e.2.getD ""))).getD "")) ∧
    (extract_pdfs worldA tulsaUrl3 "out" (some "Minutes")).count =
      ((entriesOf pageA).filter (fun e => should_download (some "Minutes") e.1)).length :=
  c7_filter_download_iff.2.2 worldA tulsaUrl3 "out" (some "Minutes") pageA
    (by decide) (by decide)

/-- One iteration happens and then the loop stops when `max_pages = 1` and the
start address is truthy. -/
theorem downloadLoop_one_page (w : World) (outputDir : String) (fw : Option String)
    (f : Nat) (start : String) (hs : start.isEmpty = false) :
    (downloadLoop w outputDir fw (some 1) (f + 1) (some start)
      ⟨0, 0, [], [], 0, some start, true⟩).pages = 1 := by
  have hc0 : loopCond (some 1) (some start) 0 = true := by
    simp [loopCond, truthyOpt, hs]
  simp only [downloadLoop]
  simp only [hc0, if_true]
  rw [downloadLoop_stop w outputDir fw (some 1) f _ _ (by simp [loopCond])]

/-- C8: with a positive page ceiling `m` the traversal processes at most `m`
pages, for any world, start address and fuel; with `max_pages = 1` and a
nonempty start address exactly one page is processed and the reported
termination reason is the page ceiling. -/
theorem c8_page_ceiling :
    (∀ (w : World) (start outputDir : String) (fw : Option String) (delay : Int)
      (fuel : Nat) (m : Int), 0 < m →
      ((download_documents w start outputDir (some m) delay fw fuel).run.pages : Int) ≤ m) ∧
    (∀ (w : World) (start outputDir : String) (fw : Option String) (delay : Int) (fuel : Nat),
      start.isEmpty = false → 1 ≤ fuel →
      (download_documents w start outputDir (some 1) delay fw fuel).run.pages = 1 ∧
      (download_documents w start outputDir (some 1) delay fw fuel).reason =
        some StopReason.ceiling) := by
  constructor
  · intro w start outputDir fw delay fuel m hm
    have h := downloadLoop_pages_le w outputDir fw m fuel (some start)
      ⟨0, 0, [], [], 0, some start, true⟩ (by exact_mod_cast hm.le)
    exact h
  · intro w start outputDir fw delay fuel hs hf
    obtain ⟨f, rfl⟩ : ∃ f, fuel = f + 1 := ⟨fuel - 1, by omega⟩
    have hp := downloadLoop_one_page w outputDir fw f start hs
    refine ⟨hp, ?_⟩
    unfold download_documents
    simp only [hp]
    simp [truthyOptInt]

/-- Witness for C8 at concrete runs. -/
theorem c8_page_ceiling_witness :
    ((download_documents worldA tulsaUrl3 "out" (some 5) 1 (some "Minutes") 10).run.pages : Int) ≤ 5 ∧
    (download_documents worldA tulsaUrl3 "out" (some 1) 1 (some "Minutes") 10).run.pages = 1 ∧
    (download_documents worldA tulsaUrl3 "out" (some 1) 1 (some "Minutes") 10).reason =
      some StopReason.ceiling :=
  ⟨c8_page_ceiling.1 worldA tulsaUrl3 "out" (some "Minutes") 1 10 5 (by decide),
   (c8_page_ceiling.2 worldA tulsaUrl3 "out" (some "Minutes") 1 10 rfl (by decide)).1,
   (c8_page_ceiling.2 worldA tulsaUrl3 "out" (some "Minutes") 1 10 rfl (by decide)).2⟩

/-- C9 (counterexample): the driver returns no value to its caller — the
Python function body has no `return` statement — so in particular it does not
return the pair `(pages_processed, total_downloaded)`. -/
theorem c9_no_return_counterexample :
    (download_documents worldA tulsaUrl3 "out" (some 5) 1 (some "Minutes") 10).retval = none ∧
    ¬ (download_documents worldA tulsaUrl3 "out" (some 5) 1 (some "Minutes") 10).retval =
      some ((download_documents worldA tulsaUrl3 "out" (some 5) 1 (some "Minutes") 10).run.pages,
        (download_documents worldA tulsaUrl3 "out" (some 5) 1 (some "Minutes") 10).run.downloads) := by
  decide

/-- C9 (amended): the driver returns nothing; it reports the totals in its
completion log line, where the page total is the number of iterations and the
download total is the sum of the per-page extractor results. -/
theorem c9_driver_reports_totals (w : World) (start outputDir : String)
    (maxPages : Option Int) (delay : Int) (fw : Option String) (fuel : Nat) :
    (download_documents w start outputDir maxPages delay fw fuel).retval = none ∧
    (download_documents w start outputDir maxPages delay fw fuel).finalLog =
      "Download complete. Processed " ++
        toString (download_documents w start outputDir maxPages delay fw fuel).run.pages ++
      " pages. Downloaded " ++
        toString (download_documents w start outputDir maxPages delay fw fuel).run.downloads ++
      " PDFs." ∧
    (download_documents w start outputDir maxPages delay fw fuel).run.downloads =
      (download_documents w start outputDir maxPages delay fw fuel).run.perPage.sum ∧
    (download_documents w start outputDir maxPages delay fw fuel).run.pages =
      (download_documents w start outputDir maxPages delay fw fuel).run.perPage.length := by
  refine ⟨rfl, rfl, ?_, ?_⟩
  · exact (downloadLoop_totals w outputDir fw maxPages fuel (some start)
      ⟨0, 0, [], [], 0, some start, true⟩ rfl rfl).1
  · exact (downloadLoop_totals w outputDir fw maxPages fuel (some start)
      ⟨0, 0, [], [], 0, some start, true⟩ rfl rfl).2

/-! ## Quoting identities on safe characters -/

/-- A quote-safe character is none of the structural characters. -/
theorem alwaysSafe_ne (c : Char) (h : alwaysSafe c = true) :
    c ≠ '+' ∧ c ≠ '%' ∧ c ≠ '=' ∧ c ≠ '&' := by
  refine ⟨?_, ?_, ?_, ?_⟩ <;> (intro he; subst he; revert h; decide)

/-- `quote_plus` leaves safe strings unchanged. -/
theorem quote_plus_safe_id : ∀ (l : List Char), l.all alwaysSafe = true → quote_plus l = l := by
  intro l
  induction l with
  | nil => intro _; rfl
  | cons c rest ih =>
    intro h
    rw [List.all_cons, Bool.and_eq_true] at h
    show (quoteChar c ++ (rest.map quoteChar).flatten : List Char) = c :: rest
    rw [show quoteChar c = [c] from by rw [quoteChar, if_pos h.1]]
    rw [show ((rest.map quoteChar).flatten : List Char) = quote_plus rest from rfl, ih h.2]
    rfl

/-- Replacing `'+'` by a space does nothing on a string without `'+'`. -/
theorem plusToSpace_no_plus : ∀ (l : List Char), (∀ c ∈ l, c ≠ '+') → plusToSpace l = l := by
  intro l
  induction l with
  | nil => intro _; rfl
  | cons c rest ih =>
    intro h
    show (if c = '+' then ' ' else c) :: plusToSpace rest = c :: rest
    rw [if_neg (h c (List.mem_cons_self c rest)), ih (fun c' hc' => h c' (List.mem_cons_of_mem c hc'))]

/-- Tokenization of a string without `'%'` produces only literals. -/
theorem unquoteTokensGo_no_percent :
    ∀ (fuel : Nat) (l : List Char), l.length ≤ fuel → (∀ c ∈ l, c ≠ '%') →
      unquoteTokensGo fuel l = l.map Sum.inl := by
  intro fuel
  induction fuel with
  | zero =>
    intro l hl _
    rw [List.length_eq_zero.mp (Nat.le_zero.mp hl)]
    rfl
  | succ f ih =>
    intro l hl hp
    cases l with
    | nil => rfl
    | cons c rest =>
      simp only [unquoteTokensGo]
      rw [if_neg (hp c (List.mem_cons_self c rest))]
      rw [List.map_cons, ih rest (by simpa using hl) (fun c' hc' => hp c' (List.mem_cons_of_mem c hc'))]

/-- Decoding a token list of literals returns the literal characters. -/
theorem decodeTokensGo_inl :
    ∀ (fuel : Nat) (l : List Char), l.length ≤ fuel →
      decodeTokensGo fuel (l.map Sum.inl) = l := by
  intro fuel
  induction fuel with
  | zero =>
    intro l hl
    rw [List.length_eq_zero.mp (Nat.le_zero.mp hl)]
    rfl
  | succ f ih =>
    intro l hl
    cases l with
    | nil => rfl
    | cons c rest =>
      rw [List.map_cons]
      show c :: decodeTokensGo f (rest.map Sum.inl) = c :: rest
      rw [ih rest (by simpa using hl)]

/-- `unquote_plus` leaves safe strings unchanged. -/
theorem unquotePlus_safe_id (l : List Char) (h : l.all alwaysSafe = true) :
    unquotePlus l = l := by
  have hmem : ∀ c ∈ l, alwaysSafe c = true := by
    intro c hc
    exact (List.all_eq_true.mp h) c hc
  have h1 : plusToSpace l = l :=
    plusToSpace_no_plus l (fun c hc => (alwaysSafe_ne c (hmem c hc)).1)
  show decodeTokens (unquoteTokens (plusToSpace l)) = l
  rw [h1]
  show decodeTokensGo (unquoteTokensGo l.length l).length (unquoteTokensGo l.length l) = l
  rw [unquoteTokensGo_no_percent l.length l le_rfl
    (fun c hc => (alwaysSafe_ne c (hmem c hc)).2.1)]
  rw [List.length_map]
  exact decodeTokensGo_inl l.length l le_rfl

/-- Every digit character is quote-safe. -/
theorem digitChar_safe (n : Nat) : alwaysSafe (digitChar n) = true := by
  unfold digitChar
  split_ifs <;> decide

/-- Decimal representations consist of quote-safe characters only. -/
theorem natDigitsAux_safe :
    ∀ (fuel n : Nat) (acc : List Char), acc.all alwaysSafe = true →
      (natDigitsAux fuel n acc).all alwaysSafe = true := by
  intro fuel
  induction fuel with
  | zero => intro n acc h; exact h
  | succ f ih =>
    intro n acc h
    simp only [natDigitsAux]
    split
    · rw [List.all_cons, Bool.and_eq_true]
      exact ⟨digitChar_safe n, h⟩
    · refine ih (n / 10) _ ?_
      rw [List.all_cons, Bool.and_eq_true]
      exact ⟨digitChar_safe (n % 10), h⟩

/-- `str(i)` for a nonnegative integer is quote-safe. -/
theorem pyStrInt_safe (i : Int) (h : 0 ≤ i) : (pyStrInt i).all alwaysSafe = true := by
  rw [pyStrInt, if_neg (by omega)]
  exact natDigitsAux_safe _ _ [] rfl

/-! ## Structure of `splitFirst`, components and `parse_qsl` -/

/-- A successful first-split decomposes the list, and the prefix avoids the
separator. -/
theorem splitFirst_eq_some (sep : Char) :
    ∀ (l a b : List Char), splitFirst sep l = some (a, b) →
      l = a ++ sep :: b ∧ sep ∉ a := by
  intro l
  induction l with
  | nil => intro a b h; simp [splitFirst] at h
  | cons c rest ih =>
    intro a b h
    simp only [splitFirst] at h
    by_cases hc : c = sep
    · rw [if_pos hc] at h
      obtain ⟨rfl, rfl⟩ : [] = a ∧ rest = b := by
        simpa using h
      subst hc
      exact ⟨rfl, by simp⟩
    · rw [if_neg hc] at h
      cases hsf : splitFirst sep rest with
      | none => rw [hsf] at h; simp at h
      | some p =>
        rw [hsf] at h
        obtain ⟨rfl, rfl⟩ : c :: p.1 = a ∧ p.2 = b := by
          simpa using h
        obtain ⟨h1, h2⟩ := ih p.1 p.2 (by rw [hsf])
        constructor
        · rw [List.cons_append, ← h1]
        · intro hmem
          rcases List.mem_cons.mp hmem with h3 | h3
          · exact hc h3.symm
          · exact h2 h3

/-- Splitting an assembled `a ++ sep :: b` whose prefix avoids the separator
recovers `(a, b)`. -/
theorem splitFirst_append (sep : Char) :
    ∀ (a b : List Char), sep ∉ a → splitFirst sep (a ++ sep :: b) = some (a, b) := by
  intro a
  induction a with
  | nil => intro b _; simp [splitFirst]
  | cons c rest ih =>
    intro b h
    have hc : ¬ c = sep := fun he => h (he ▸ List.mem_cons_self c rest)
    show splitFirst sep (c :: (rest ++ sep :: b)) = some (c :: rest, b)
    simp only [splitFirst]
    rw [if_neg hc, ih b (fun hm => h (List.mem_cons_of_mem c hm))]
    rfl

/-- Unfolding of a canonical component: it splits as `key=value` with both
parts nonempty and safe, and reassembles from its key and value. -/
theorem canonicalComp_spec (c : List Char) (h : canonicalComp c = true) :
    splitFirst '=' c = some (compKeyOf c, compValOf c) ∧
    c = compKeyOf c ++ '=' :: compValOf c ∧
    compKeyOf c ≠ [] ∧ (compKeyOf c).all alwaysSafe = true ∧
    compValOf c ≠ [] ∧ (compValOf c).all alwaysSafe = true := by
  unfold canonicalComp at h
  cases hsf : splitFirst '=' c with
  | none => rw [hsf] at h; simp at h
  | some p =>
    rw [hsf] at h
    simp only [Bool.and_eq_true] at h
    obtain ⟨⟨⟨h1, h2⟩, h3⟩, h4⟩ := h
    have hk : compKeyOf c = p.1 := by unfold compKeyOf; rw [hsf]
    have hv : compValOf c = p.2 := by unfold compValOf; rw [hsf]
    have hd := splitFirst_eq_some '=' c p.1 p.2 (by rw [hsf])
    refine ⟨?_, ?_, ?_, ?_, ?_, ?_⟩
    · rw [hk, hv]
    · rw [hk, hv]; exact hd.1
    · rw [hk]; simpa using h1
    · rw [hk]; exact h2
    · rw [hv]; simpa using h3
    · rw [hv]; exact h4

/-- `parseField` on a canonical component is the identity pair. -/
theorem parseField_canonical (c : List Char) (h : canonicalComp c = true) :
    parseField c = some (compKeyOf c, compValOf c) := by
  obtain ⟨hsf, hjoin, hk0, hksafe, hv0, hvsafe⟩ := canonicalComp_spec c h
  have hne : c ≠ [] := by
    rw [hjoin]
    cases hck : compKeyOf c <;> simp
  unfold parseField
  rw [if_neg (by simpa using hne), hsf]
  show (if (compValOf c).isEmpty = true then none
    else some (unquotePlus (compKeyOf c), unquotePlus (compValOf c))) =
    some (compKeyOf c, compValOf c)
  rw [if_neg (by simpa using hv0)]
  rw [unquotePlus_safe_id _ hksafe, unquotePlus_safe_id _ hvsafe]

/-- On a list of canonical components, `parseField` keeps every component as
its key/value pair. -/
theorem filterMap_parseField :
    ∀ (cs : List (List Char)), cs.all canonicalComp = true →
      cs.filterMap parseField = cs.map (fun c => (compKeyOf c, compValOf c)) := by
  intro cs
  induction cs with
  | nil => intro _; rfl
  | cons c rest ih =>
    intro h
    rw [List.all_cons, Bool.and_eq_true] at h
    rw [List.filterMap_cons, parseField_canonical c h.1, List.map_cons, ih h.2]

/-- `parse_qsl` of a fully canonical query keeps all components in order. -/
theorem parse_qsl_canonical (q : List Char) (h : (comps q).all canonicalComp = true) :
    parse_qsl q = (comps q).map (fun c => (compKeyOf c, compValOf c)) :=
  filterMap_parseField (comps q) h

/-! ## Dict lemmas (`parse_qs` grouping, `dictGet`, `dictSet`) -/

/-- `distinctList` is `Nodup`. -/
theorem distinctList_iff_nodup : ∀ (l : List (List Char)), distinctList l = true ↔ l.Nodup := by
  intro l
  induction l with
  | nil => simp [distinctList]
  | cons x xs ih =>
    simp only [distinctList, Bool.and_eq_true, Bool.not_eq_true', List.nodup_cons]
    constructor
    · rintro ⟨h1, h2⟩
      refine ⟨fun hm => ?_, ih.mp h2⟩
      have hcx : xs.contains x = true := List.elem_iff.mpr hm
      rw [hcx] at h1
      simp at h1
    · rintro ⟨h1, h2⟩
      refine ⟨?_, ih.mpr h2⟩
      cases hc : xs.contains x with
      | false => rfl
      | true => exact absurd (List.elem_iff.mp hc) h1

/-- Looking a key up across an append searches left first. -/
theorem dictGet_append (d1 d2 : List (List Char × List (List Char))) (k : List Char) :
    dictGet (d1 ++ d2) k =
      match dictGet d1 k with
      | some v => some v
      | none => dictGet d2 k := by
  induction d1 with
  | nil => rfl
  | cons p rest ih =>
    show (if p.1 = k then some p.2 else dictGet (rest ++ d2) k) =
      match (if p.1 = k then some p.2 else dictGet rest k) with
      | some v => some v
      | none => dictGet d2 k
    by_cases hp : p.1 = k
    · rw [if_pos hp, if_pos hp]
    · rw [if_neg hp, if_neg hp, ih]

/-- Appending a fresh key. -/
theorem addToDict_not_mem :
    ∀ (d : List (List Char × List (List Char))) (k v : List Char),
      dictGet d k = none → addToDict d k v = d ++ [(k, [v])] := by
  intro d
  induction d with
  | nil => intro k v _; rfl
  | cons p rest ih =>
    intro k v h
    unfold dictGet at h
    unfold addToDict
    by_cases hp : p.1 = k
    · rw [if_pos hp] at h; exact absurd h (by simp)
    · rw [if_neg hp] at h
      rw [if_neg hp, ih k v h]
      rfl

/-- Grouping pairwise-distinct keyed pairs: every key gets a singleton list,
in the original order. -/
theorem foldl_addToDict_distinct :
    ∀ (ps : List (List Char × List Char)) (d : List (List Char × List (List Char))),
      (ps.map Prod.fst).Nodup →
      (∀ p ∈ ps, dictGet d p.1 = none) →
      ps.foldl (fun d p => addToDict d p.1 p.2) d = d ++ ps.map (fun p => (p.1, [p.2])) := by
  intro ps
  induction ps with
  | nil => intro d _ _; simp
  | cons p rest ih =>
    intro d hnd hnone
    rw [List.map_cons, List.nodup_cons] at hnd
    rw [List.foldl_cons]
    rw [addToDict_not_mem d p.1 p.2 (hnone p (List.mem_cons_self p rest))]
    rw [ih (d ++ [(p.1, [p.2])]) hnd.2 ?_]
    · rw [List.map_cons, List.append_assoc]
      rfl
    · intro p' hp'
      rw [dictGet_append]
      rw [hnone p' (List.mem_cons_of_mem p hp')]
      show dictGet [(p.1, [p.2])] p'.1 = none
      unfold dictGet
      rw [if_neg ?_]
      · rfl
      · intro he
        exact hnd.1 (he ▸ List.mem_map_of_mem Prod.fst hp')

/-- `dictGet` over singleton-valued mapped pairs is `find?`. -/
theorem dictGet_of_pairs :
    ∀ (ps : List (List Char × List Char)) (k : List Char),
      dictGet (ps.map (fun p => (p.1, [p.2]))) k =
        (ps.find? (fun p => decide (p.1 = k))).map (fun p => [p.2]) := by
  intro ps
  induction ps with
  | nil => intro k; rfl
  | cons p rest ih =>
    intro k
    rw [List.map_cons]
    unfold dictGet
    rw [List.find?_cons]
    by_cases hp : p.1 = k
    · rw [if_pos hp]
      simp [hp]
    · rw [if_neg hp, ih k]
      simp [hp]

/-! ## `urlencode` structure -/

/-- `urlencode` joins the encoded component list. -/
theorem urlencode_eq_encList (d : List (List Char × List (List Char))) :
    urlencode d = joinAmp (encList d) := rfl

/-- `encList` distributes over cons. -/
theorem encList_cons (k : List Char) (vs : List (List Char))
    (d : List (List Char × List (List Char))) :
    encList ((k, vs) :: d) = vs.map (urlencodePair k) ++ encList d := by
  unfold encList
  rw [List.map_cons, List.flatten_cons]

/-- Encoding the key/value pair of a canonical component reassembles it. -/
theorem encodePair_canonical (c : List Char) (h : canonicalComp c = true) :
    urlencodePair (compKeyOf c) (compValOf c) = c := by
  obtain ⟨-, hjoin, -, hksafe, -, hvsafe⟩ := canonicalComp_spec c h
  unfold urlencodePair
  rw [quote_plus_safe_id _ hksafe, quote_plus_safe_id _ hvsafe, ← hjoin]

/-- Encoding the grouped entries of canonical components reproduces the
components. -/
theorem encList_map_entry :
    ∀ (cs : List (List Char)), cs.all canonicalComp = true →
      encList (cs.map (fun c => (compKeyOf c, [compValOf c]))) = cs := by
  intro cs
  induction cs with
  | nil => intro _; rfl
  | cons c rest ih =>
    intro h
    rw [List.all_cons, Bool.and_eq_true] at h
    rw [List.map_cons, encList_cons]
    rw [show ([compValOf c].map (urlencodePair (compKeyOf c)) : List (List Char)) =
      [urlencodePair (compKeyOf c) (compValOf c)] from rfl]
    rw [encodePair_canonical c h.1, ih h.2]
    rfl

/-- The item-replacement map is the identity when no component has the item
key. -/
theorem map_replace_no_item (nv : List Char) :
    ∀ (cs : List (List Char)), itemKey ∉ cs.map compKeyOf →
      cs.map (fun c => if compKeyOf c = itemKey then itemKey ++ '=' :: nv else c) = cs := by
  intro cs
  induction cs with
  | nil => intro _; rfl
  | cons c rest ih =>
    intro h
    rw [List.map_cons] at h ⊢
    have h1 : ¬ compKeyOf c = itemKey :=
      fun he => h (by rw [he]; exact List.mem_cons_self _ _)
    rw [if_neg h1, ih (fun hm => h (List.mem_cons_of_mem _ hm))]

/-- Replacing the `item` entry of the grouped canonical components and
re-encoding yields exactly the original components with the `item` value
replaced in place. -/
theorem encList_dictSet_canonical (nv : List Char) :
    ∀ (cs : List (List Char)),
      cs.all canonicalComp = true →
      (cs.map compKeyOf).Nodup →
      (∃ c0 ∈ cs, compKeyOf c0 = itemKey) →
      nv.all alwaysSafe = true →
      encList (dictSet (cs.map (fun c => (compKeyOf c, [compValOf c]))) itemKey [nv]) =
        cs.map (fun c => if compKeyOf c = itemKey then itemKey ++ '=' :: nv else c) := by
  intro cs
  induction cs with
  | nil => rintro _ _ ⟨c0, h0, -⟩ _; exact absurd h0 (List.not_mem_nil c0)
  | cons c rest ih =>
    rintro hall hnd hex hnv
    rw [List.all_cons, Bool.and_eq_true] at hall
    rw [List.map_cons, List.nodup_cons] at hnd
    rw [List.map_cons, List.map_cons]
    by_cases hk : compKeyOf c = itemKey
    · show encList (if (compKeyOf c, [compValOf c]).1 = itemKey
          then (itemKey, [nv]) :: rest.map (fun c => (compKeyOf c, [compValOf c]))
          else (compKeyOf c, [compValOf c]) ::
            dictSet (rest.map (fun c => (compKeyOf c, [compValOf c]))) itemKey [nv]) = _
      rw [if_pos hk, if_pos hk]
      rw [encList_cons]
      rw [encList_map_entry rest hall.2]
      have hni : itemKey ∉ rest.map compKeyOf := by rw [← hk]; exact hnd.1
      rw [map_replace_no_item nv rest hni]
      show [urlencodePair itemKey nv] ++ rest = (itemKey ++ '=' :: nv) :: rest
      rw [show urlencodePair itemKey nv = itemKey ++ '=' :: nv from by
        unfold urlencodePair
        rw [quote_plus_safe_id itemKey (by decide), quote_plus_safe_id nv hnv]]
      rfl
    · obtain ⟨c0, hc0mem, hc0key⟩ := hex
      have hc0mem' : c0 ∈ rest := by
        rcases List.mem_cons.mp hc0mem with h | h
        · exact absurd (h ▸ hc0key) hk
        · exact h
      show encList (if (compKeyOf c, [compValOf c]).1 = itemKey
          then (itemKey, [nv]) :: rest.map (fun c => (compKeyOf c, [compValOf c]))
          else (compKeyOf c, [compValOf c]) ::
            dictSet (rest.map (fun c => (compKeyOf c, [compValOf c]))) itemKey [nv]) = _
      rw [if_neg hk, if_neg hk]
      rw [encList_cons]
      rw [ih hall.2 hnd.2 ⟨c0, hc0mem', hc0key⟩ hnv]
      rw [show ([compValOf c].map (urlencodePair (compKeyOf c)) : List (List Char)) =
        [urlencodePair (compKeyOf c) (compValOf c)] from rfl]
      rw [encodePair_canonical c hall.1]
      rfl

/-- `parse_qs` of a canonical query groups each component into a
singleton-valued entry, preserving order. -/
theorem parse_qs_canonical (q : List Char) (h : canonicalQuery q = true) :
    parse_qs q = (comps q).map (fun c => (compKeyOf c, [compValOf c])) := by
  have h' := h
  unfold canonicalQuery at h'
  rw [Bool.and_eq_true] at h'
  unfold parse_qs
  rw [parse_qsl_canonical q h'.1]
  have hnd : (((comps q).map (fun c => (compKeyOf c, compValOf c))).map Prod.fst).Nodup := by
    rw [List.map_map]
    exact (distinctList_iff_nodup _).mp h'.2
  have hfold := foldl_addToDict_distinct
    ((comps q).map fun c => (compKeyOf c, compValOf c)) [] hnd (fun p _ => rfl)
  rw [hfold, List.nil_append, List.map_map]
  rfl

/-- C2 (counterexample): for the address `...?b=&item=2` — whose `item` value
is the integer 2 > 1 — the returned address is `...?item=1`, not the
byte-identical-except-item `...?b=&item=1` the claim requires: `parse_qs`
drops the blank-valued parameter `b`, so it is not preserved. -/
theorem c2_blank_param_counterexample :
    decrement_item_in_url blankParamUrl =
      some "https://www.cityoftulsa.org/apps/CouncilDocuments?item=1" ∧
    some "https://www.cityoftulsa.org/apps/CouncilDocuments?item=1" ≠
      some "https://www.cityoftulsa.org/apps/CouncilDocuments?b=&item=1" := by
  exact ⟨by decide, by decide⟩

/-- C2 (amended): for every address whose query is canonical (each component
`k=v` with nonempty quote-safe key and value, keys pairwise distinct) and
whose `item` component's value parses to an integer `n > 1`, the decrement
returns the address reassembled from the unchanged scheme, netloc, path,
params and fragment, with a query equal to the original query in which only
the `item` component's value is replaced by `n − 1` — all other components
byte-identical and in their original relative order. -/
theorem c2_decrement_canonical (url : String) (c0 : List Char) (n : Int)
    (hc : canonicalQuery (urlparse url).query.data = true)
    (hfind : (comps (urlparse url).query.data).find?
      (fun c => decide (compKeyOf c = itemKey)) = some c0)
    (hval : pyIntList (compValOf c0) = some n)
    (hn : 1 < n) :
    decrement_item_in_url url =
      some (urlunparse { urlparse url with
        query := ⟨replaceItem (urlparse url).query.data (pyStrInt (n - 1))⟩ }) := by
  have hcq := hc
  unfold canonicalQuery at hcq
  rw [Bool.and_eq_true] at hcq
  have hqs := parse_qs_canonical (urlparse url).query.data hc
  have hget : dictGet (parse_qs (urlparse url).query.data) itemKey = some [compValOf c0] := by
    rw [hqs]
    rw [show ((comps (urlparse url).query.data).map fun c => (compKeyOf c, [compValOf c])) =
      (((comps (urlparse url).query.data).map fun c => (compKeyOf c, compValOf c)).map
        fun p => (p.1, [p.2])) from by rw [List.map_map]; rfl]
    rw [dictGet_of_pairs]
    rw [List.find?_map]
    rw [show ((fun p => decide (p.1 = itemKey)) ∘
      fun c => ((compKeyOf c : List Char), compValOf c)) =
      (fun c => decide (compKeyOf c = itemKey)) from rfl]
    rw [hfind]
    rfl
  have hnv : (pyStrInt (n - 1)).all alwaysSafe = true := pyStrInt_safe (n - 1) (by omega)
  have hex : ∃ c' ∈ comps (urlparse url).query.data, compKeyOf c' = itemKey :=
    ⟨c0, List.mem_of_find?_eq_some hfind, by simpa using List.find?_some hfind⟩
  have hnodup : ((comps (urlparse url).query.data).map compKeyOf).Nodup :=
    (distinctList_iff_nodup _).mp hcq.2
  have henc : urlencode (dictSet (parse_qs (urlparse url).query.data) itemKey
      [pyStrInt (n - 1)]) = replaceItem (urlparse url).query.data (pyStrInt (n - 1)) := by
    rw [hqs, urlencode_eq_encList]
    unfold replaceItem
    rw [encList_dictSet_canonical (pyStrInt (n - 1)) (comps (urlparse url).query.data)
      hcq.1 hnodup hex hnv]
  unfold decrement_item_in_url
  simp only [hget]
  rw [show (([compValOf c0] : List (List Char)).headD []) = compValOf c0 from rfl]
  simp only [hval]
  rw [if_neg (by omega)]
  rw [henc]

/-- Witness for C2 (amended) at the concrete scenario A start address. -/
theorem c2_decrement_canonical_witness :
    decrement_item_in_url tulsaUrl3 =
      some (urlunparse { urlparse tulsaUrl3 with
        query := ⟨replaceItem (urlparse tulsaUrl3).query.data (pyStrInt (3 - 1))⟩ }) :=
  c2_decrement_canonical tulsaUrl3 "item=3".data 3 (by decide) (by decide) (by decide)
    (by decide)

/-! ## Splitting joined components, characters of `quote_plus` -/

/-- Splitting a separator-free string yields one field. -/
theorem splitOnChar_no_sep (sep : Char) :
    ∀ (x : List Char), sep ∉ x → splitOnChar sep x = [x] := by
  intro x
  induction x with
  | nil => intro _; rfl
  | cons c rest ih =>
    intro h
    have hc : ¬ c = sep := fun he => h (he ▸ List.mem_cons_self c rest)
    show (let r := splitOnChar sep rest
      if c = sep then [] :: r else
        match r with
        | [] => [[c]]
        | h :: t => (c :: h) :: t) = [c :: rest]
    rw [ih (fun hm => h (List.mem_cons_of_mem c hm))]
    rw [if_neg hc]

/-- Splitting after a separator-free prefix peels it off. -/
theorem splitOnChar_append (sep : Char) :
    ∀ (x z : List Char), sep ∉ x →
      splitOnChar sep (x ++ sep :: z) = x :: splitOnChar sep z := by
  intro x
  induction x with
  | nil =>
    intro z _
    show (let r := splitOnChar sep z
      if sep = sep then [] :: r else _) = [] :: splitOnChar sep z
    rw [if_pos rfl]
  | cons c rest ih =>
    intro z h
    have hc : ¬ c = sep := fun he => h (he ▸ List.mem_cons_self c rest)
    show (let r := splitOnChar sep (rest ++ sep :: z)
      if c = sep then [] :: r else
        match r with
        | [] => [[c]]
        | h :: t => (c :: h) :: t) = (c :: rest) :: splitOnChar sep z
    rw [ih z (fun hm => h (List.mem_cons_of_mem c hm))]
    rw [if_neg hc]

/-- Joining `&`-free components and re-splitting recovers them. -/
theorem comps_joinAmp :
    ∀ (parts : List (List Char)), parts ≠ [] → (∀ p ∈ parts, '&' ∉ p) →
      comps (joinAmp parts) = parts := by
  intro parts
  induction parts with
  | nil => intro h _; exact absurd rfl h
  | cons x xs ih =>
    intro _ h
    cases xs with
    | nil =>
      show comps (joinAmp [x]) = [x]
      exact splitOnChar_no_sep '&' x (h x (List.mem_cons_self x []))
    | cons y rest =>
      show splitOnChar '&' (x ++ '&' :: joinAmp (y :: rest)) = x :: y :: rest
      rw [splitOnChar_append '&' x (joinAmp (y :: rest)) (h x (List.mem_cons_self x _))]
      rw [show splitOnChar '&' (joinAmp (y :: rest)) = comps (joinAmp (y :: rest)) from rfl]
      rw [ih (by simp) (fun p hp => h p (List.mem_cons_of_mem x hp))]

/-- Every hexadecimal digit character is quote-safe. -/
theorem hexDigitChar_safe (n : Nat) : alwaysSafe (hexDigitChar n) = true := by
  unfold hexDigitChar
  split_ifs
  · exact digitChar_safe n
  all_goals decide

/-- Characters of a `quote_plus` encoding are `'%'`, `'+'` or safe. -/
theorem quote_plus_chars (l : List Char) :
    ∀ c' ∈ quote_plus l, c' = '%' ∨ c' = '+' ∨ alwaysSafe c' = true := by
  intro c' hc'
  unfold quote_plus at hc'
  rw [List.mem_flatten] at hc'
  obtain ⟨seg, hseg, hc'seg⟩ := hc'
  rw [List.mem_map] at hseg
  obtain ⟨c, -, rfl⟩ := hseg
  unfold quoteChar at hc'seg
  by_cases hs : alwaysSafe c = true
  · rw [if_pos hs] at hc'seg
    right; right
    rw [List.mem_singleton.mp hc'seg]
    exact hs
  · rw [if_neg hs] at hc'seg
    by_cases hsp : c = ' '
    · rw [if_pos hsp] at hc'seg
      right; left
      exact List.mem_singleton.mp hc'seg
    · rw [if_neg hsp] at hc'seg
      rw [List.mem_flatten] at hc'seg
      obtain ⟨seg2, hseg2, hc'2⟩ := hc'seg
      rw [List.mem_map] at hseg2
      obtain ⟨b, -, rfl⟩ := hseg2
      unfold percentByte at hc'2
      have hc'3 : c' = '%' ∨ c' = hexDigitChar (b / 16) ∨ c' = hexDigitChar (b % 16) := by
        simpa using hc'2
      rcases hc'3 with h | h | h
      · left; exact h
      · right; right; rw [h]; exact hexDigitChar_safe _
      · right; right; rw [h]; exact hexDigitChar_safe _

/-- `quote_plus` output never contains `'&'`. -/
theorem quote_plus_no_amp (l : List Char) : '&' ∉ quote_plus l := by
  intro h
  rcases quote_plus_chars l '&' h with h' | h' | h' <;> revert h' <;> decide

/-- `quote_plus` output never contains `'='`. -/
theorem quote_plus_no_eq (l : List Char) : '=' ∉ quote_plus l := by
  intro h
  rcases quote_plus_chars l '=' h with h' | h' | h' <;> revert h' <;> decide

/-- The key part of an encoded component is the encoded key. -/
theorem compKeyOf_encodePair (k v : List Char) :
    compKeyOf (urlencodePair k v) = quote_plus k := by
  unfold compKeyOf urlencodePair
  rw [splitFirst_append '=' (quote_plus k) (quote_plus v) (quote_plus_no_eq k)]

/-- A non-safe, non-space character encodes to a string starting with
`'%'`. -/
theorem quoteChar_unsafe_head (c : Char) (hs : alwaysSafe c = false) (hsp : c ≠ ' ') :
    ∃ tl, quoteChar c = '%' :: tl := by
  unfold quoteChar
  rw [if_neg (by simp [hs]), if_neg hsp]
  simp only [utf8Bytes, percentByte]
  split_ifs <;> exact ⟨_, rfl⟩

/-- `quote_plus` can only produce a string free of `'%'` and `'+'` if it was
the identity on it. -/
theorem quote_plus_eq_plain :
    ∀ (k t : List Char), (∀ c ∈ t, c ≠ '%' ∧ c ≠ '+') → quote_plus k = t → k = t := by
  intro k
  induction k with
  | nil => intro t _ h; exact h
  | cons c rest ih =>
    intro t ht h
    have hck : quote_plus (c :: rest) = quoteChar c ++ quote_plus rest := by
      unfold quote_plus
      rw [List.map_cons, List.flatten_cons]
    rw [hck] at h
    by_cases hs : alwaysSafe c = true
    · rw [show quoteChar c = [c] from by rw [quoteChar, if_pos hs]] at h
      cases t with
      | nil => simp at h
      | cons t0 ts =>
        obtain ⟨heq, h2⟩ : c = t0 ∧ quote_plus rest = ts := by simpa using h
        rw [heq, ih ts (fun c' hc' => ht c' (List.mem_cons_of_mem t0 hc')) h2]
    · by_cases hsp : c = ' '
      · rw [show quoteChar c = ['+'] from by rw [quoteChar, if_neg hs, if_pos hsp]] at h
        have : '+' ∈ t := by rw [← h]; exact List.mem_cons_self '+' _
        exact absurd rfl (ht '+' this).2
      · obtain ⟨tl, htl⟩ := quoteChar_unsafe_head c (by simpa using hs) hsp
        rw [htl] at h
        have : '%' ∈ t := by rw [← h]; exact List.mem_cons_self '%' _
        exact absurd rfl (ht '%' this).1

/-! ## General `parse_qs` grouping (duplicate keys) -/

/-- Lookup in a non-empty dict. -/
theorem dictGet_cons (p : List Char × List (List Char))
    (rest : List (List Char × List (List Char))) (k : List Char) :
    dictGet (p :: rest) k = if p.1 = k then some p.2 else dictGet rest k := rfl

/-- Effect of one `addToDict` step on a lookup. -/
theorem dictGet_addToDict :
    ∀ (d : List (List Char × List (List Char))) (k' v k : List Char),
      dictGet (addToDict d k' v) k =
        if k' = k then some ((dictGet d k).getD [] ++ [v]) else dictGet d k := by
  intro d
  induction d with
  | nil =>
    intro k' v k
    show (if k' = k then some [v] else none) = _
    by_cases h : k' = k
    · rw [if_pos h, if_pos h]; rfl
    · rw [if_neg h, if_neg h]; rfl
  | cons p rest ih =>
    intro k' v k
    show dictGet (if p.1 = k' then (p.1, p.2 ++ [v]) :: rest else p :: addToDict rest k' v) k = _
    by_cases h1 : p.1 = k'
    · subst h1
      rw [if_pos rfl]
      by_cases h2 : p.1 = k
      · simp [dictGet_cons, h2]
      · simp [dictGet_cons, h2]
    · rw [if_neg h1]
      by_cases h2 : p.1 = k
      · have h3 : ¬ k' = k := fun he => h1 (h2.trans he.symm)
        simp [dictGet_cons, h2, h3]
      · simp [dictGet_cons, h2, ih k' v k]

/-- Folding `addToDict` groups: the looked-up list is the previous binding
extended by the values of the pairs with that key, in order. -/
theorem dictGet_foldl :
    ∀ (ps : List (List Char × List Char)) (d : List (List Char × List (List Char)))
      (k : List Char),
      dictGet (ps.foldl (fun d p => addToDict d p.1 p.2) d) k =
        match dictGet d k with
        | some vs => some (vs ++ (ps.filter (fun p => decide (p.1 = k))).map Prod.snd)
        | none =>
          if ps.any (fun p => decide (p.1 = k))
          then some ((ps.filter (fun p => decide (p.1 = k))).map Prod.snd)
          else none := by
  intro ps
  induction ps with
  | nil =>
    intro d k
    cases h : dictGet d k <;> simp [h]
  | cons p rest ih =>
    intro d k
    rw [List.foldl_cons, ih (addToDict d p.1 p.2) k, dictGet_addToDict d p.1 p.2 k]
    by_cases hp : p.1 = k
    · cases h : dictGet d k with
      | some vs => simp [List.filter_cons, List.any_cons, hp, h]
      | none => simp [List.filter_cons, List.any_cons, hp, h]
    · cases h : dictGet d k with
      | some vs => simp [List.filter_cons, List.any_cons, hp, h]
      | none =>
        have hcond : (decide (p.1 = k) || rest.any fun p => decide (p.1 = k)) =
            (rest.any fun p => decide (p.1 = k)) := by
          simp [hp]
        simp only [List.filter_cons, List.any_cons, h, hcond]
        simp [hp]

/-- `find?` is the head of `filter`. -/
theorem find?_eq_head?_filter' {α : Type} (p : α → Bool) :
    ∀ (l : List α), l.find? p = (l.filter p).head? := by
  intro l
  induction l with
  | nil => rfl
  | cons x xs ih =>
    rw [List.find?_cons, List.filter_cons]
    cases h : p x with
    | true => rfl
    | false => rw [ih]; rfl

/-- Keys after one `addToDict`: unchanged when present, appended when new. -/
theorem addToDict_fst :
    ∀ (d : List (List Char × List (List Char))) (k v : List Char),
      (addToDict d k v).map Prod.fst =
        if k ∈ d.map Prod.fst then d.map Prod.fst else d.map Prod.fst ++ [k] := by
  intro d
  induction d with
  | nil => intro k v; simp [addToDict]
  | cons p rest ih =>
    intro k v
    show ((if p.1 = k then (p.1, p.2 ++ [v]) :: rest else p :: addToDict rest k v).map Prod.fst) = _
    by_cases h1 : p.1 = k
    · rw [if_pos h1, if_pos (by rw [List.map_cons, h1]; exact List.mem_cons_self k _)]
      rfl
    · rw [if_neg h1, List.map_cons, List.map_cons, ih k v]
      by_cases h2 : k ∈ rest.map Prod.fst
      · rw [if_pos h2, if_pos (List.mem_cons_of_mem p.1 h2)]
      · rw [if_neg h2, if_neg ?_]
        · rfl
        · intro hm
          rcases List.mem_cons.mp hm with he | he
          · exact h1 he.symm
          · exact h2 he

/-- Folding `addToDict` preserves distinctness of the keys. -/
theorem foldl_addToDict_nodup :
    ∀ (ps : List (List Char × List Char)) (d : List (List Char × List (List Char))),
      (d.map Prod.fst).Nodup →
      ((ps.foldl (fun d p => addToDict d p.1 p.2) d).map Prod.fst).Nodup := by
  intro ps
  induction ps with
  | nil => intro d h; exact h
  | cons p rest ih =>
    intro d h
    rw [List.foldl_cons]
    refine ih (addToDict d p.1 p.2) ?_
    rw [addToDict_fst d p.1 p.2]
    by_cases hm : p.1 ∈ d.map Prod.fst
    · rw [if_pos hm]; exact h
    · rw [if_neg hm]
      rw [List.nodup_append]
      exact ⟨h, List.nodup_singleton p.1, by simpa using hm⟩

/-- The keys of a parsed query dict are pairwise distinct. -/
theorem parse_qs_keys_nodup (q : List Char) : ((parse_qs q).map Prod.fst).Nodup :=
  foldl_addToDict_nodup (parse_qsl q) [] List.nodup_nil

/-! ## The `item` components of an encoded dict -/

/-- When no key of the dict is `item`, no encoded component has key `item`. -/
theorem encList_filter_no_item :
    ∀ (d : List (List Char × List (List Char))), itemKey ∉ d.map Prod.fst →
      (encList d).filter (fun c => decide (compKeyOf c = itemKey)) = [] := by
  intro d
  induction d with
  | nil => intro _; rfl
  | cons p rest ih =>
    intro h
    rw [show p = (p.1, p.2) from rfl, encList_cons, List.filter_append]
    rw [ih (fun hm => h (List.mem_cons_of_mem _ hm)), List.append_nil]
    rw [List.filter_eq_nil_iff.mpr ?_]
    intro part hpart
    rw [List.mem_map] at hpart
    obtain ⟨v, -, rfl⟩ := hpart
    rw [compKeyOf_encodePair]
    simp only [decide_eq_true_eq]
    intro he
    refine h (List.mem_map.mpr ⟨p, List.mem_cons_self p rest, ?_⟩)
    exact quote_plus_eq_plain p.1 itemKey (by decide) he
/-- Every character of an encoded component is a `quote_plus` character or
`'='`; in particular `'&'` never occurs. -/
theorem encodePair_no_amp (k v : List Char) : '&' ∉ urlencodePair k v := by
  unfold urlencodePair
  intro h
  rcases List.mem_append.mp h with h' | h'
  · exact quote_plus_no_amp k h'
  · rcases List.mem_cons.mp h' with h'' | h''
    · exact absurd h'' (by decide)
    · exact quote_plus_no_amp v h''

/-- No component of an encoded dict contains `'&'`. -/
theorem encList_no_amp (d : List (List Char × List (List Char))) :
    ∀ p ∈ encList d, '&' ∉ p := by
  induction d with
  | nil => intro p hp; exact absurd hp (List.not_mem_nil p)
  | cons e rest ih =>
    intro p hp
    rw [show e = (e.1, e.2) from rfl, encList_cons] at hp
    rcases List.mem_append.mp hp with h | h
    · rw [List.mem_map] at h
      obtain ⟨v, -, rfl⟩ := h
      exact encodePair_no_amp e.1 v
    · exact ih p h

/-- Replacing the `item` binding and encoding: exactly one component has key
`item`, and it is `item=<new value>`, for any dict with distinct keys that
contains `item`. -/
theorem encList_dictSet_filter_item (nv : List Char) (hnv : nv.all alwaysSafe = true) :
    ∀ (d : List (List Char × List (List Char))),
      (d.map Prod.fst).Nodup →
      (dictGet d itemKey).isSome = true →
      (encList (dictSet d itemKey [nv])).filter (fun c => decide (compKeyOf c = itemKey)) =
        [itemKey ++ '=' :: nv] := by
  intro d
  induction d with
  | nil => intro _ h; exact absurd h (by decide)
  | cons p rest ih =>
    intro hnd hsome
    rw [List.map_cons, List.nodup_cons] at hnd
    show ((encList (if p.1 = itemKey then (itemKey, [nv]) :: rest
      else p :: dictSet rest itemKey [nv])).filter
        (fun c => decide (compKeyOf c = itemKey))) = _
    by_cases hk : p.1 = itemKey
    · rw [if_pos hk, encList_cons, List.filter_append]
      rw [encList_filter_no_item rest (hk ▸ hnd.1)]
      rw [List.append_nil]
      show (([urlencodePair itemKey nv] : List (List Char)).filter
        (fun c => decide (compKeyOf c = itemKey))) = _
      rw [show urlencodePair itemKey nv = itemKey ++ '=' :: nv from by
        unfold urlencodePair
        rw [quote_plus_safe_id itemKey (by decide), quote_plus_safe_id nv hnv]]
      rw [List.filter_cons]
      rw [if_pos ?_]
      · rfl
      · rw [show compKeyOf (itemKey ++ '=' :: nv) = itemKey from by
          unfold compKeyOf
          rw [splitFirst_append '=' itemKey nv (by decide)]]
        simp
    · have hsome' : (dictGet rest itemKey).isSome = true := by
        rw [show dictGet (p :: rest) itemKey =
          (if p.1 = itemKey then some p.2 else dictGet rest itemKey) from rfl] at hsome
        rwa [if_neg hk] at hsome
      rw [if_neg hk]
      rw [show (p : List Char × List (List Char)) = (p.1, p.2) from rfl, encList_cons,
        List.filter_append]
      rw [ih hnd.2 hsome']
      rw [List.filter_eq_nil_iff.mpr ?_, List.nil_append]
      intro part hpart
      rw [List.mem_map] at hpart
      obtain ⟨v, -, rfl⟩ := hpart
      rw [compKeyOf_encodePair]
      simp only [decide_eq_true_eq]
      intro he
      exact hk (quote_plus_eq_plain p.1 itemKey (by decide) he)

/-- C10: when the query holds the `item` key more than once, the value the
code decrements is the first occurrence's value (the head of the grouped
list is the first filtered pair's value), and the returned address's query —
built by `urlencode` from the updated dict — contains exactly one `item`
component, namely `item=<n−1>`: the duplicates are collapsed. -/
theorem c10_duplicate_item_collapsed (url : String) (vs : List (List Char)) (n : Int)
    (hget : dictGet (parse_qs (urlparse url).query.data) itemKey = some vs)
    (hdup : 2 ≤ ((parse_qsl (urlparse url).query.data).filter
      (fun p => decide (p.1 = itemKey))).length)
    (hval : pyIntList (vs.headD []) = some n)
    (hn : 1 < n) :
    ((parse_qsl (urlparse url).query.data).find? (fun p => decide (p.1 = itemKey))).map
        Prod.snd = some (vs.headD []) ∧
    decrement_item_in_url url = some (urlunparse { urlparse url with
      query := ⟨urlencode (dictSet (parse_qs (urlparse url).query.data) itemKey
        [pyStrInt (n - 1)])⟩ }) ∧
    (comps (urlencode (dictSet (parse_qs (urlparse url).query.data) itemKey
      [pyStrInt (n - 1)]))).filter (fun c => decide (compKeyOf c = itemKey)) =
      [itemKey ++ '=' :: pyStrInt (n - 1)] := by
  have hfoldl : dictGet (parse_qs (urlparse url).query.data) itemKey =
      if (parse_qsl (urlparse url).query.data).any (fun p => decide (p.1 = itemKey))
      then some (((parse_qsl (urlparse url).query.data).filter
        (fun p => decide (p.1 = itemKey))).map Prod.snd)
      else none :=
    dictGet_foldl (parse_qsl (urlparse url).query.data) [] itemKey
  rw [hget] at hfoldl
  by_cases hany : (parse_qsl (urlparse url).query.data).any
      (fun p => decide (p.1 = itemKey)) = true
  case neg =>
    rw [if_neg hany] at hfoldl
    exact absurd hfoldl (by simp)
  rw [if_pos hany] at hfoldl
  have hvs : vs = ((parse_qsl (urlparse url).query.data).filter
      (fun p => decide (p.1 = itemKey))).map Prod.snd := by
    exact Option.some_injective _ hfoldl
  have hnv : (pyStrInt (n - 1)).all alwaysSafe = true := pyStrInt_safe (n - 1) (by omega)
  have hfilter := encList_dictSet_filter_item (pyStrInt (n - 1)) hnv
    (parse_qs (urlparse url).query.data) (parse_qs_keys_nodup (urlparse url).query.data)
    (by rw [hget]; rfl)
  refine ⟨?_, ?_, ?_⟩
  · rw [find?_eq_head?_filter']
    cases hf : (parse_qsl (urlparse url).query.data).filter
        (fun p => decide (p.1 = itemKey)) with
    | nil => rw [hf] at hdup; simp at hdup
    | cons f0 t =>
      rw [hvs, hf]
      rfl
  · unfold decrement_item_in_url
    simp only [hget]
    simp only [hval]
    rw [if_neg (by omega)]
  · rw [urlencode_eq_encList]
    have hne : encList (dictSet (parse_qs (urlparse url).query.data) itemKey
        [pyStrInt (n - 1)]) ≠ [] := by
      intro h0
      rw [h0] at hfilter
      exact absurd hfilter (by simp)
    rw [comps_joinAmp _ hne (encList_no_amp _)]
    exact hfilter

/-- Witness for C10 at the concrete address `https://h/p?item=5&x=a&item=9`:
the first `item` value 5 is decremented and the result's query holds the
`item` key exactly once, as `item=4`. -/
theorem c10_duplicate_item_collapsed_witness :
    decrement_item_in_url dupItemUrl = some (urlunparse { urlparse dupItemUrl with
      query := ⟨urlencode (dictSet (parse_qs (urlparse dupItemUrl).query.data) itemKey
        [pyStrInt (5 - 1)])⟩ }) ∧
    (comps (urlencode (dictSet (parse_qs (urlparse dupItemUrl).query.data) itemKey
      [pyStrInt (5 - 1)]))).filter (fun c => decide (compKeyOf c = itemKey)) =
      [itemKey ++ '=' :: pyStrInt (5 - 1)] :=
  ⟨(c10_duplicate_item_collapsed dupItemUrl ["5".data, "9".data] 5
      (by decide) (by decide) (by decide) (by decide)).2.1,
   (c10_duplicate_item_collapsed dupItemUrl ["5".data, "9".data] 5
      (by decide) (by decide) (by decide) (by decide)).2.2⟩
